import Mathlib

/-!
Verification of the column_management preference/metadata caching layer.

This file gives a shallow embedding, in Lean 4, of the parts of the
column_management app (cache_service.py, preference_service.py,
preference_sync_service.py, metadata_service.py, column_service.py,
column_virtualization_service.py) that the checked claims are about, and
proves or refutes each claim against that embedding.

Modelling conventions:
- Python dicts are association lists that preserve insertion order;
  assignment updates in place, deletion removes the entry.
- time.time() is a natural-number clock passed explicitly.
- JSON values are the mutual inductive type Json below (numbers are
  modelled as integers: every number the claims touch is an int).
- json.dumps/json.loads round-trip is the identity on the Json model;
  a corrupt tier-2 payload is modelled by an explicit constructor.
- The MD5 hex digest is modelled as an injective function of its input
  string, represented by the string itself (an ideal collision-free
  digest); everything before the digest is modelled faithfully.
-/

/-! ## Generic helpers: ordered association lists (Python dict model) -/

/-- Python dict lookup: first (unique) matching key. -/
def alGet {α : Type} (k : String) : List (String × α) → Option α
  | [] => none
  | (k2, v) :: tl => if k2 = k then some v else alGet k tl

/-- Python dict assignment: update in place if present, else append. -/
def alSet {α : Type} (k : String) (v : α) : List (String × α) → List (String × α)
  | [] => [(k, v)]
  | (k2, v2) :: tl => if k2 = k then (k2, v) :: tl else (k2, v2) :: alSet k v tl

/-- Python dict deletion (del d[k]). -/
def alDel {α : Type} (k : String) : List (String × α) → List (String × α)
  | [] => []
  | (k2, v2) :: tl => if k2 = k then tl else (k2, v2) :: alDel k tl

/-! ## Characters, decimal printing (model of Python str(int)) -/

/-- The decimal digit character for n < 10. -/
def digitChar (n : Nat) : Char := Char.ofNat (48 + n)

/-- Fueled decimal printer for naturals; fuel n + 1 always suffices. -/
def natCharsF : Nat → Nat → List Char
  | 0, _ => []
  | f + 1, n => if n < 10 then [digitChar n] else natCharsF f (n / 10) ++ [digitChar (n % 10)]

/-- Decimal digits of a natural number, most significant first (str(n)). -/
def natChars (n : Nat) : List Char := natCharsF (n + 1) n

/-- Characters of str(n) for a Python int n. -/
def intChars (n : Int) : List Char :=
  if n < 0 then '-' :: natChars n.natAbs else natChars n.toNat

/-- Numeric value of a string of decimal digits. -/
def digitsToNat (l : List Char) : Nat := l.foldl (fun a c => a * 10 + (c.toNat - 48)) 0

/-- Code-point lexicographic order on character lists (Python string <=). -/
def lexLe : List Char → List Char → Bool
  | [], _ => true
  | _ :: _, [] => false
  | a :: as, b :: bs =>
    if a.toNat < b.toNat then true
    else if b.toNat < a.toNat then false
    else lexLe as bs

/-- Python string comparison, by code points. -/
def strLeB (a b : String) : Bool := lexLe a.data b.data

/-! ## The JSON value model -/

mutual
/-- A JSON value as produced by Python json loads/dumps on the data this
app handles: null, bool, int, str, list, dict (insertion-ordered). -/
inductive Json where
  | null
  | bool (b : Bool)
  | num (n : Int)
  | str (s : String)
  | arr (xs : JArr)
  | obj (kvs : JObj)
  deriving DecidableEq
/-- A JSON array as its own list-like type (so that recursion over nested
values is plain mutual structural recursion). -/
inductive JArr where
  | nil
  | cons (hd : Json) (tl : JArr)
  deriving DecidableEq
/-- A JSON object: insertion-ordered key/value entries. -/
inductive JObj where
  | nil
  | cons (k : String) (v : Json) (tl : JObj)
  deriving DecidableEq
end

/-- Induction principle for JObj alone (no recursion into values). -/
def jobjInd {R : JObj → Prop} (h0 : R .nil)
    (h1 : ∀ k v tl, R tl → R (.cons k v tl)) : ∀ l, R l
  | .nil => h0
  | .cons k v tl => h1 k v tl (jobjInd h0 h1 tl)

/-- Induction principle for JArr alone. -/
def jarrInd {R : JArr → Prop} (h0 : R .nil)
    (h1 : ∀ v tl, R tl → R (.cons v tl)) : ∀ l, R l
  | .nil => h0
  | .cons v tl => h1 v tl (jarrInd h0 h1 tl)

/-- Keys of a JSON object, in insertion order. -/
def JObj.keys : JObj → List String
  | .nil => []
  | .cons k _ tl => k :: tl.keys

/-- Entries of a JSON object as a plain list of pairs. -/
def JObj.entries : JObj → List (String × Json)
  | .nil => []
  | .cons k v tl => (k, v) :: tl.entries

/-- Number of entries (len of the Python dict). -/
def JObj.length : JObj → Nat
  | .nil => 0
  | .cons _ _ tl => tl.length + 1

/-- Python dict membership test (key in d). -/
def JObj.hasKey (l : JObj) (k : String) : Bool := (l.keys).contains k

/-- Python dict lookup d[k]: first matching entry. -/
def JObj.lookupJ : JObj → String → Option Json
  | .nil, _ => none
  | .cons k2 v tl, k => if k2 = k then some v else tl.lookupJ k

/-- Python dict assignment d[k] = v: update in place or append. -/
def JObj.setKey : JObj → String → Json → JObj
  | .nil, k, v => .cons k v .nil
  | .cons k2 v2 tl, k, v => if k2 = k then .cons k2 v tl else .cons k2 v2 (tl.setKey k v)

/-- Lookup of a key inside a JSON value that is expected to be an object. -/
def jsonLookup (j : Json) (k : String) : Option Json :=
  match j with
  | .obj kvs => kvs.lookupJ k
  | _ => none

mutual
/-- Structural size of a JSON value (used as decoder fuel in proofs). -/
def sizeJ : Json → Nat
  | .null => 1
  | .bool _ => 1
  | .num _ => 1
  | .str _ => 1
  | .arr xs => sizeA xs + 1
  | .obj kvs => sizeO kvs + 1
def sizeA : JArr → Nat
  | .nil => 1
  | .cons x tl => sizeJ x + sizeA tl + 1
def sizeO : JObj → Nat
  | .nil => 1
  | .cons _ v tl => sizeJ v + sizeO tl + 1
end

/-! ## json.dumps with separators=(",", ":")

dumpsV is the serializer applied to an already-key-canonicalized value;
json.dumps(value, sort_keys=True, separators=(",", ":")) is modelled as
dumpsV after canonV (sorting every object level first, then serializing,
which is what the inline sort in json.dumps computes). -/

mutual
/-- Compact JSON serialization of a value (keys in stored order). -/
def dumpsV : Json → List Char
  | .null => "null".data
  | .bool true => "true".data
  | .bool false => "false".data
  | .num n => intChars n
  | .str s => '"' :: s.data ++ ['"']
  | .arr xs => '[' :: dumpsArr xs ++ [']']
  | .obj kvs => '{' :: dumpsObj kvs ++ ['}']
/-- Comma-separated serialization of array elements (no brackets). -/
def dumpsArr : JArr → List Char
  | .nil => []
  | .cons x .nil => dumpsV x
  | .cons x (.cons y tl) => dumpsV x ++ ',' :: dumpsArr (.cons y tl)
/-- Comma-separated serialization of object entries (no braces). -/
def dumpsObj : JObj → List Char
  | .nil => []
  | .cons k v .nil => '"' :: k.data ++ '"' :: ':' :: dumpsV v
  | .cons k v (.cons k2 v2 tl) =>
    '"' :: k.data ++ '"' :: ':' :: dumpsV v ++ ',' :: dumpsObj (.cons k2 v2 tl)
end

/-- Insert an entry into an object sorted ascending by key (stable). -/
def insertObj (k : String) (v : Json) : JObj → JObj
  | .nil => .cons k v .nil
  | .cons k2 v2 tl =>
    if strLeB k k2 then .cons k v (.cons k2 v2 tl) else .cons k2 v2 (insertObj k v tl)

/-- Stable insertion sort of object entries by key (model of sorted()). -/
def sortObj : JObj → JObj
  | .nil => .nil
  | .cons k v tl => insertObj k v (sortObj tl)

mutual
/-- Canonical form of a JSON value: every object level sorted by key. -/
def canonV : Json → Json
  | .null => .null
  | .bool b => .bool b
  | .num n => .num n
  | .str s => .str s
  | .arr xs => .arr (canonArr xs)
  | .obj kvs => .obj (sortObj (canonObj kvs))
def canonArr : JArr → JArr
  | .nil => .nil
  | .cons x tl => .cons (canonV x) (canonArr tl)
def canonObj : JObj → JObj
  | .nil => .nil
  | .cons k v tl => .cons k (canonV v) (canonObj tl)
end

/-- A character the serializer emits verbatim inside a quoted string:
printable ASCII and not a quote or backslash (json.dumps escapes the
rest; escape-free strings are the well-formedness domain used here). -/
def charOk (c : Char) : Bool :=
  (32 ≤ c.toNat && c.toNat ≤ 126) && !(c = '"') && !(c = '\\')

/-- Escape-free string. -/
def strOk (s : String) : Bool := s.data.all charOk

/-- No duplicate keys. -/
def keysND : List String → Bool
  | [] => true
  | k :: tl => !(tl.contains k) && keysND tl

mutual
/-- Well-formed JSON value: all strings escape-free, all object key sets
duplicate-free (Python dicts cannot hold duplicate keys). -/
def wfV : Json → Bool
  | .null => true
  | .bool _ => true
  | .num _ => true
  | .str s => strOk s
  | .arr xs => wfArr xs
  | .obj kvs => keysND kvs.keys && wfObj kvs
def wfArr : JArr → Bool
  | .nil => true
  | .cons x tl => wfV x && wfArr tl
def wfObj : JObj → Bool
  | .nil => true
  | .cons k v tl => strOk k && wfV v && wfObj tl
end

/-- Expect the given literal characters at the head of the input. -/
def expectChars : List Char → List Char → Option (List Char)
  | [], bs => some bs
  | w :: ws, b :: bs => if b = w then expectChars ws bs else none
  | _ :: _, [] => none

mutual
/-- Fueled recursive-descent JSON reader (proof device for injectivity of
the serializer: it is only required to be correct on serializer output). -/
def decodeV : Nat → List Char → Option (Json × List Char)
  | 0, _ => none
  | _ + 1, [] => none
  | f + 1, c :: r =>
    if c.isDigit then
      some (.num (digitsToNat ((c :: r).takeWhile Char.isDigit)),
        (c :: r).dropWhile Char.isDigit)
    else if c = '-' then
      let ds := r.takeWhile Char.isDigit
      if ds.isEmpty then none
      else some (.num (-(digitsToNat ds : Int)), r.dropWhile Char.isDigit)
    else if c = '"' then
      let s := r.takeWhile (fun x => x != '"')
      match r.dropWhile (fun x => x != '"') with
      | '"' :: r2 => some (.str (String.mk s), r2)
      | _ => none
    else if c = '[' then (decodeItems f r).map (fun p => (.arr p.1, p.2))
    else if c = '{' then (decodePairs f r).map (fun p => (.obj p.1, p.2))
    else if c = 'n' then (expectChars ['u', 'l', 'l'] r).map (fun r2 => (.null, r2))
    else if c = 't' then (expectChars ['r', 'u', 'e'] r).map (fun r2 => (.bool true, r2))
    else if c = 'f' then (expectChars ['a', 'l', 's', 'e'] r).map (fun r2 => (.bool false, r2))
    else none
/-- Read array elements up to and including the closing bracket. -/
def decodeItems : Nat → List Char → Option (JArr × List Char)
  | 0, _ => none
  | _ + 1, [] => none
  | f + 1, c :: r =>
    if c = ']' then some (.nil, r)
    else
      match decodeV f (c :: r) with
      | some (j, ',' :: r2) => (decodeItems f r2).map (fun p => (.cons j p.1, p.2))
      | some (j, ']' :: r2) => some (.cons j .nil, r2)
      | _ => none
/-- Read object entries up to and including the closing brace. -/
def decodePairs : Nat → List Char → Option (JObj × List Char)
  | 0, _ => none
  | _ + 1, [] => none
  | f + 1, c :: r =>
    if c = '}' then some (.nil, r)
    else if c = '"' then
      let k := r.takeWhile (fun x => x != '"')
      match r.dropWhile (fun x => x != '"') with
      | '"' :: ':' :: r2 =>
        match decodeV f r2 with
        | some (v, ',' :: r3) => (decodePairs f r3).map (fun p => (.cons (String.mk k) v p.1, p.2))
        | some (v, '}' :: r3) => some (.cons (String.mk k) v .nil, r3)
        | _ => none
      | _ => none
    else none
end

/-- json.dumps(value, sort_keys=True, separators=(",", ":")). -/
def jsonDumpsSorted (j : Json) : String := String.mk (dumpsV (canonV j))

/-- hashlib.md5(s.encode("utf-8")).hexdigest(), modelled as an injective
(ideal, collision-free) digest represented by its input string. -/
def md5Hex (s : String) : String := s

/-- PreferenceSyncService._generate_preference_hash: stable serialization
with sorted keys, then the digest. -/
def generate_preference_hash (preferences : Json) : String :=
  md5Hex (jsonDumpsSorted preferences)

/-- Two JSON values hold the same content with object keys presented in
possibly different orders: congruent everywhere, and adjacent entries of
an object may be transposed when their keys differ (the transpositions
generate every permutation of distinct-keyed entries). -/
inductive KeyPerm : Json → Json → Prop where
  | null : KeyPerm .null .null
  | bool (b : Bool) : KeyPerm (.bool b) (.bool b)
  | num (n : Int) : KeyPerm (.num n) (.num n)
  | str (s : String) : KeyPerm (.str s) (.str s)
  | arrNil : KeyPerm (.arr .nil) (.arr .nil)
  | arrCons {x y : Json} {xs ys : JArr} : KeyPerm x y → KeyPerm (.arr xs) (.arr ys) →
      KeyPerm (.arr (.cons x xs)) (.arr (.cons y ys))
  | objNil : KeyPerm (.obj .nil) (.obj .nil)
  | objCons (k : String) {v w : Json} {kvs kws : JObj} : KeyPerm v w →
      KeyPerm (.obj kvs) (.obj kws) →
      KeyPerm (.obj (.cons k v kvs)) (.obj (.cons k w kws))
  | objSwap (k1 k2 : String) (v1 v2 : Json) (tl : JObj) : k1 ≠ k2 →
      KeyPerm (.obj (.cons k1 v1 (.cons k2 v2 tl))) (.obj (.cons k2 v2 (.cons k1 v1 tl)))
  | objTrans {kvs1 kvs2 kvs3 : JObj} : KeyPerm (.obj kvs1) (.obj kvs2) →
      KeyPerm (.obj kvs2) (.obj kvs3) → KeyPerm (.obj kvs1) (.obj kvs3)

/-! ## CacheService (cache_service.py): two-tier cache model

Tier 1 (self.memory_cache) is an insertion-ordered bounded map of entries
with value, created_at, expires_at. Tier 2 (frappe.cache(), Redis) stores
the serialized value with its own expiry; Redis expiring a key on its own
is modelled by the lookup honouring expires_at. The hit/miss counters and
the threading lock are not modelled: all executions here are explicit
(sequential or explicitly interleaved), so the counters decide no claim. -/

/-- A tier-1 cache entry (value, created_at, expires_at). -/
structure MemEntry where
  value : Json
  created_at : Nat
  expires_at : Nat
  deriving DecidableEq

/-- A tier-2 payload: a well-formed serialized value, or a payload that
json.loads rejects (treated as a miss by the reader). -/
inductive RVal where
  | good (v : Json)
  | corrupt
  deriving DecidableEq

/-- A tier-2 entry with the expiry Redis itself enforces. -/
structure RedisEntry where
  val : RVal
  expires_at : Nat
  deriving DecidableEq

/-- The two cache tiers. -/
structure CacheState where
  memory : List (String × MemEntry)
  redis : List (String × RedisEntry)
  deriving DecidableEq

/-- self.cache_prefix. -/
def cacheNamespace : String := "column_management"

/-- full_key = f"(cache_prefix):(key)". -/
def fullKey (key : String) : String := cacheNamespace ++ ":" ++ key

/-- self.default_ttl (seconds). -/
def defaultTTL : Nat := 3600

/-- ttl = expire or self.default_ttl (Python or: 0 and None are falsy). -/
def ttlOf (expire : Option Nat) : Nat :=
  match expire with
  | none => defaultTTL
  | some t => if t = 0 then defaultTTL else t

/-- min(keys, key=created_at): the first key attaining the minimal
created_at, in insertion order (Python min keeps the first minimum). -/
def argminCreated : List (String × MemEntry) → Option String
  | [] => none
  | (k, e) :: tl =>
    match argminCreated tl with
    | none => some k
    | some k2 =>
      match alGet k2 tl with
      | none => some k
      | some e2 => if e2.created_at < e.created_at then some k2 else some k

/-- CacheService._set_memory_cache: evict the oldest-created entry when
the size limit is reached, then store the new entry. (With limit = 0 and
an empty map the Python code would raise from min([]); that configuration
never occurs and is modelled as a plain insert.) -/
def set_memory_cache (limit : Nat) (now ttl : Nat) (key : String) (value : Json)
    (mem : List (String × MemEntry)) : List (String × MemEntry) :=
  let mem2 :=
    if limit ≤ mem.length then
      match argminCreated mem with
      | some oldest => alDel oldest mem
      | none => mem
    else mem
  alSet key ⟨value, now, now + ttl⟩ mem2

/-- Tier-2 read: present and not yet expired (Redis removes expired keys). -/
def redisLookup (redis : List (String × RedisEntry)) (fk : String) (now : Nat) :
    Option RVal :=
  match alGet fk redis with
  | none => none
  | some e => if now < e.expires_at then some e.val else none

/-- CacheService.get: tier 1 with lazy expiry (expired entries are deleted
on access and treated as a miss), then tier 2; a tier-2 hit repopulates
tier 1 with the default TTL; an unparsable tier-2 payload is a miss. -/
def cache_get (limit : Nat) (st : CacheState) (now : Nat) (key : String) :
    Option Json × CacheState :=
  let fk := fullKey key
  let step2 : CacheState → Option Json × CacheState := fun st1 =>
    match redisLookup st1.redis fk now with
    | some (.good v) =>
      (some v, { st1 with memory := set_memory_cache limit now defaultTTL fk v st1.memory })
    | some .corrupt => (none, st1)
    | none => (none, st1)
  match alGet fk st.memory with
  | some e =>
    if now < e.expires_at then (some e.value, st)
    else step2 { st with memory := alDel fk st.memory }
  | none => step2 st

/-- CacheService.set: write tier 1 and tier 2 with the requested or
default TTL (serialization of a Json value always succeeds). -/
def cache_set (limit : Nat) (st : CacheState) (now : Nat) (key : String) (value : Json)
    (expire : Option Nat) : Bool × CacheState :=
  let fk := fullKey key
  let ttl := ttlOf expire
  (true,
    { memory := set_memory_cache limit now ttl fk value st.memory,
      redis := alSet fk ⟨.good value, now + ttl⟩ st.redis })

/-! ### Pattern deletion (delete_pattern and _match_pattern) -/

/-- An atom of the regexes _match_pattern builds: a literal character,
a bare dot (any character), or dot-star (any run of characters). -/
inductive RAtom where
  | lit (c : Char)
  | dot
  | dotStar
  deriving DecidableEq

/-- pattern.replace("*", ".*"). -/
def expandStar (l : List Char) : List Char :=
  l.flatMap (fun c => if c = '*' then ['.', '*'] else [c])

/-- Characters that are regex metacharacters beyond dot and star; a
pattern holding one is outside the modelled regex fragment. -/
def regexSpecials : List Char := ['*', '+', '?', '(', ')', '[', ']', '^', '$', '|', '\\']

/-- Read the translated pattern as a sequence of regex atoms ("." = any
character, ".*" = any run). None: the pattern leaves the modelled
fragment. -/
def parseRegexF : Nat → List Char → Option (List RAtom)
  | 0, _ => none
  | _ + 1, [] => some []
  | f + 1, c :: tl =>
    if c = '.' then
      match tl with
      | '*' :: tl2 => (parseRegexF f tl2).map (RAtom.dotStar :: ·)
      | _ => (parseRegexF f tl).map (RAtom.dot :: ·)
    else if regexSpecials.contains c then none
    else (parseRegexF f tl).map (RAtom.lit c :: ·)

/-- Read the translated pattern (fuel one beyond the length always
suffices: every step consumes at least one character). -/
def parseRegex (l : List Char) : Option (List RAtom) := parseRegexF (l.length + 1) l

/-- Fueled regex matcher: does some prefix of s match the atoms
(re.match semantics: anchored at the start, not at the end)? -/
def rmatchF : Nat → List RAtom → List Char → Bool
  | 0, _, _ => false
  | _ + 1, [], _ => true
  | f + 1, .lit c :: r, s =>
    match s with
    | [] => false
    | x :: xs => x = c && rmatchF f r xs
  | f + 1, .dot :: r, s =>
    match s with
    | [] => false
    | _ :: xs => rmatchF f r xs
  | f + 1, .dotStar :: r, s =>
    rmatchF f r s ||
      match s with
      | [] => false
      | _ :: xs => rmatchF f (.dotStar :: r) xs

/-- CacheService._match_pattern: translate the glob to a regex by
replacing "*" with ".*" and test with re.match. -/
def match_pattern (key pattern : String) : Bool :=
  match parseRegex (expandStar pattern.data) with
  | some r => rmatchF (r.length + key.data.length + 1) r key.data
  | none => false

/-- CacheService.delete_pattern: delete every resident tier-1 key matching
the prefixed pattern; tier 2 is left untouched (the code only notes that a
SCAN would be needed there). -/
def delete_pattern (st : CacheState) (pattern : String) : CacheState :=
  let fp := cacheNamespace ++ ":" ++ pattern
  { st with memory := st.memory.filter (fun kv => !(match_pattern kv.1 fp)) }

/-- Glob semantics of a pattern of the form "prefix:*" (written from the
claim, for comparison): the key extends the prefix (including the colon);
every character of the prefix is literal. -/
def globStarMatch (pfxColon : String) (key : String) : Bool :=
  pfxColon.data.isPrefixOf key.data

/-! ### get_or_set -/

/-- CacheService.get_or_set, one sequential execution: get, and on miss
(value is None) run the supplier and cache a non-None result. The Bool
records whether the supplier ran. -/
def get_or_set (limit : Nat) (st : CacheState) (now : Nat) (key : String)
    (supplier : Option Json) (expire : Option Nat) :
    Option Json × CacheState × Bool :=
  match cache_get limit st now key with
  | (some v, st1) => (some v, st1, false)
  | (none, st1) =>
    match supplier with
    | some w =>
      let (_, st2) := cache_set limit st1 now key w expire
      (some w, st2, true)
    | none => (none, st1, true)

/-- The phases of one in-flight get_or_set call: about to read the cache;
read missed, about to run the supplier; supplier returned w, about to
write; finished with a result. -/
inductive GosPhase where
  | start
  | missed
  | ready (w : Option Json)
  | finished (res : Option Json)
  deriving DecidableEq

/-- One step of an in-flight get_or_set call against the shared cache,
counting supplier invocations. The source takes no lock around the
read-compute-write sequence, so steps of two calls may interleave. -/
def gosStep (limit now : Nat) (key : String) (supplier : Option Json) (expire : Option Nat) :
    CacheState × Nat × GosPhase → CacheState × Nat × GosPhase :=
  fun s =>
    match s.2.2 with
    | .start =>
      match cache_get limit s.1 now key with
      | (some v, st1) => (st1, s.2.1, .finished (some v))
      | (none, st1) => (st1, s.2.1, .missed)
    | .missed => (s.1, s.2.1 + 1, .ready supplier)
    | .ready w =>
      match w with
      | some x => ((cache_set limit s.1 now key x expire).2, s.2.1, .finished (some x))
      | none => (s.1, s.2.1, .finished none)
    | .finished r => (s.1, s.2.1, .finished r)

/-- Two concurrent get_or_set calls on the same key, driven by a schedule
(true: step call A, false: step call B). Returns the shared state, the
total number of supplier invocations, and both phases. -/
def runTwoGos (limit now : Nat) (key : String) (supplier : Option Json)
    (expire : Option Nat) (sched : List Bool)
    (init : CacheState × Nat × GosPhase × GosPhase) :
    CacheState × Nat × GosPhase × GosPhase :=
  sched.foldl
    (fun acc who =>
      let (st, calls, pa, pb) := acc
      if who then
        let (st2, calls2, pa2) := gosStep limit now key supplier expire (st, calls, pa)
        (st2, calls2, pa2, pb)
      else
        let (st2, calls2, pb2) := gosStep limit now key supplier expire (st, calls, pb)
        (st2, calls2, pa, pb2))
    init

/-- Folding set_memory_cache over a list of (key, insertion time) pairs,
inserting the same value with the default TTL (the tier-1 insert path of
repeated set calls). -/
def insertSeq (limit : Nat) (items : List (String × Nat))
    (mem : List (String × MemEntry)) : List (String × MemEntry) :=
  items.foldl (fun m it => set_memory_cache limit it.2 defaultTTL it.1 .null m) mem

/-! ## PreferenceService (preference_service.py): validation and save -/

/-- The five sections _validate_preferences requires. -/
def requiredSections : List String :=
  ["columns", "filters", "pagination", "sorting", "view_settings"]

/-- The three attributes every column entry must carry. -/
def requiredColFields : List String := ["visible", "width", "order"]

/-- Validation of one column entry list: each value must be a dict with
the three mandatory attributes, and its width a number in [50, 1000]
(a JSON bool passes Python isinstance(width, (int, float)) but has value
0 or 1, so it fails the range test with the same error message). -/
def validateColumns : JObj → Except String Unit
  | .nil => .ok ()
  | .cons f cp tl =>
    match cp with
    | .obj cpo =>
      match requiredColFields.find? (fun s => !(cpo.hasKey s)) with
      | some s => .error ("Column preference for " ++ f ++ " missing " ++ s)
      | none =>
        match cpo.lookupJ "width" with
        | some (.num w) =>
          if 50 ≤ w ∧ w ≤ 1000 then validateColumns tl
          else .error ("Invalid width for column " ++ f ++ ": must be between 50 and 1000")
        | some _ => .error ("Invalid width for column " ++ f ++ ": must be between 50 and 1000")
        | none => .error ("Column preference for " ++ f ++ " missing width")
    | _ => .error ("Column preference for " ++ f ++ " must be a dictionary")

/-- PreferenceService._validate_preferences: a dict with all five
sections, whose columns section is a dict of valid column entries. -/
def validate_preferences (preferences : Json) : Except String Unit :=
  match preferences with
  | .obj kvs =>
    match requiredSections.find? (fun s => !(kvs.hasKey s)) with
    | some s => .error ("Missing required preference section: " ++ s)
    | none =>
      match kvs.lookupJ "columns" with
      | some (.obj cols) => validateColumns cols
      | some _ => .error "Columns preferences must be a dictionary"
      | none => .error "Missing required preference section: columns"
  | _ => .error "Preferences must be a dictionary"

/-- frappe.utils.now() rendered as a string of the clock value. -/
def timeStr (now : Nat) : String := String.mk (natChars now)

/-- Persistence and cache touched by save_user_preferences: the stored
User Column Preference documents keyed by user and doctype, and the
preference cache keyed the same way (values held serialized). -/
structure PrefState where
  db : List (String × Json)
  cache : List (String × String)
  deriving DecidableEq

/-- Composite persistence key for one (user, doctype) document. -/
def prefDocKey (user doctype : String) : String := user ++ "|" ++ doctype

/-- cache_key = f"(prefix):user:(user):(doctype)". -/
def prefCacheKey (user doctype : String) : String :=
  "column_management_prefs:user:" ++ user ++ ":" ++ doctype

/-- Set last_updated on the (already validated, hence dict) document. -/
def touchLastUpdated (preferences : Json) (now : Nat) : Json :=
  match preferences with
  | .obj kvs => .obj (kvs.setKey "last_updated" (.str (timeStr now)))
  | other => other

/-- PreferenceService.save_user_preferences: validate, stamp
last_updated, write through to persistence and cache; a validation
failure raises (auto_save instead swallows it) and mutates nothing. -/
def save_user_preferences (st : PrefState) (now : Nat) (user doctype : String)
    (preferences : Json) (auto_save : Bool) : Except String Bool × PrefState :=
  match validate_preferences preferences with
  | .error e =>
    if auto_save then (.ok false, st)
    else (.error ("Failed to save preferences: " ++ e), st)
  | .ok _ =>
    let p2 := touchLastUpdated preferences now
    (.ok true,
      { db := alSet (prefDocKey user doctype) p2 st.db,
        cache := alSet (prefCacheKey user doctype) (String.mk (dumpsV p2)) st.cache })

/-! ## PreferenceSyncService (preference_sync_service.py): restore -/

/-- A stored Preference Backup document. backup_data is kept in parsed
form (it is written by create_preference_backup via json.dumps, and the
serialization round-trip is the identity in this model). -/
structure PrefBackup where
  user : String
  doctype_name : String
  backup_type : String
  backup_data : JObj
  deriving DecidableEq

/-- State the restore path touches: stored backups by document name, and
the persisted preference documents by (user, doctype) key. -/
structure SyncState where
  backups : List (String × PrefBackup)
  db : List (String × Json)
  deriving DecidableEq

/-- The ownership message of restore_preference_backup; in the source it
is raised via frappe.throw, and the spec taxonomy names this failure
AuthorizationError. -/
def authorizationMessage : String := "You can only restore your own backups"

/-- The wrapper message the outer except-handler rethrows with. -/
def restoreFailure (msg : String) : String := "Failed to restore backup: " ++ msg

/-- Write every record type of the payload through to persistence for the
backup owner (UserColumnPreference.create_or_update_preference; the
per-entry publish to other sessions does not touch this state). -/
def restoreEntries (owner : String) (entries : List (String × Json))
    (db : List (String × Json)) : List (String × Json) :=
  entries.foldl (fun d e => alSet (prefDocKey owner e.1) e.2 d) db

/-- PreferenceSyncService.restore_preference_backup: load the backup,
reject a truthy caller other than the owner, then restore every record
type of the payload and return the count; every raise is rethrown wrapped
by the outer handler. -/
def restore_preference_backup (st : SyncState) (backup_name : String)
    (user : Option String) : Except String Nat × SyncState :=
  match alGet backup_name st.backups with
  | none => (.error (restoreFailure ("Preference Backup " ++ backup_name ++ " not found")), st)
  | some b =>
    if (match user with
        | some u => !(u = "") && !(b.user = u)
        | none => false) then
      (.error (restoreFailure authorizationMessage), st)
    else
      (.ok b.backup_data.length,
        { st with db := restoreEntries b.user b.backup_data.entries st.db })

/-! ## MetadataService (metadata_service.py): standard-field augmentation -/

/-- The attributes of a field descriptor that the claims touch (the
remaining attributes the source carries — options, reqd, description,
depends_on, ... — are constants never read by the modelled paths). -/
structure MetaField where
  fieldname : String
  label : String
  fieldtype : String
  hidden : Bool
  in_list_view : Bool
  in_standard_filter : Bool
  idx : Nat
  sortable : Bool
  filterable : Bool
  deriving DecidableEq

/-- MetadataService._get_standard_fields: the five synthetic fields that
exist on every record. -/
def get_standard_fields : List MetaField :=
  [{ fieldname := "name", label := "ID", fieldtype := "Data", hidden := false,
     in_list_view := true, in_standard_filter := true, idx := 0,
     sortable := true, filterable := true },
   { fieldname := "owner", label := "Created By", fieldtype := "Link", hidden := false,
     in_list_view := false, in_standard_filter := true, idx := 9997,
     sortable := true, filterable := true },
   { fieldname := "creation", label := "Created On", fieldtype := "Datetime", hidden := false,
     in_list_view := false, in_standard_filter := true, idx := 9998,
     sortable := true, filterable := true },
   { fieldname := "modified", label := "Last Modified", fieldtype := "Datetime", hidden := false,
     in_list_view := false, in_standard_filter := true, idx := 9999,
     sortable := true, filterable := true },
   { fieldname := "modified_by", label := "Last Modified By", fieldtype := "Link", hidden := false,
     in_list_view := false, in_standard_filter := true, idx := 10000,
     sortable := true, filterable := true }]

/-- The augmentation step of _fetch_doctype_metadata: after converting
the declared fields, metadata["fields"].extend(standard_fields). -/
def augmentWithStandardFields (fields : List MetaField) : List MetaField :=
  fields ++ get_standard_fields

/-! ## ColumnService (column_service.py) and default preferences -/

/-- A declared schema field as frappe.get_meta reports it (the attributes
_get_doctype_fields reads). -/
structure SchemaField where
  fieldname : String
  label : Option String
  fieldtype : String
  hidden : Bool
  in_list_view : Bool
  idx : Nat
  deriving DecidableEq

/-- Field types _get_doctype_fields skips. -/
def breakTypes : List String := ["Section Break", "Column Break", "Tab Break", "HTML"]

/-- ColumnService._get_default_width: type-based default widths. -/
def get_default_width (fieldtype : String) : Nat :=
  match fieldtype with
  | "Data" => 140
  | "Link" => 140
  | "Select" => 120
  | "Int" => 100
  | "Float" => 120
  | "Currency" => 120
  | "Percent" => 100
  | "Date" => 100
  | "Datetime" => 140
  | "Time" => 100
  | "Check" => 80
  | "Text" => 200
  | "Small Text" => 200
  | "Long Text" => 300
  | "Text Editor" => 300
  | "HTML Editor" => 300
  | _ => 140

/-- fieldname.replace("_", " "). -/
def underscoreToSpace (l : List Char) : List Char :=
  l.map (fun c => if c = '_' then ' ' else c)

/-- Python str.title(): uppercase the first letter of each alphabetic
run, lowercase the rest. -/
def titleChars : Bool → List Char → List Char
  | _, [] => []
  | prevAlpha, c :: tl =>
    (if c.isAlpha then (if prevAlpha then c.toLower else c.toUpper) else c)
      :: titleChars c.isAlpha tl

/-- fieldname.replace("_", " ").title(). -/
def defaultLabel (fieldname : String) : String :=
  String.mk (titleChars false (underscoreToSpace fieldname.data))

/-- field.label or default (Python or: an empty label is falsy). -/
def labelOf (f : SchemaField) : String :=
  match f.label with
  | some l => if l = "" then defaultLabel f.fieldname else l
  | none => defaultLabel f.fieldname

/-- One field configuration as _get_doctype_fields emits it. -/
structure DefaultCol where
  fieldname : String
  label : String
  fieldtype : String
  width : Nat
  in_list_view : Bool
  sortable : Bool
  filterable : Bool
  idx : Nat
  deriving DecidableEq

/-- The per-field conversion of _get_doctype_fields. -/
def toDefaultCol (f : SchemaField) : DefaultCol :=
  { fieldname := f.fieldname, label := labelOf f, fieldtype := f.fieldtype,
    width := get_default_width f.fieldtype, in_list_view := f.in_list_view,
    sortable := !(["Text", "Long Text", "HTML Editor"].contains f.fieldtype),
    filterable := true, idx := f.idx }

/-- The declared fields _get_doctype_fields keeps: no layout breaks, no
hidden fields. -/
def keptFields (schema : List SchemaField) : List SchemaField :=
  schema.filter (fun f => !(breakTypes.contains f.fieldtype) && !f.hidden)

/-- The identifier standard field _get_doctype_fields appends. -/
def nameStdCol : DefaultCol :=
  { fieldname := "name", label := "ID", fieldtype := "Data", width := 140,
    in_list_view := true, sortable := true, filterable := true, idx := 0 }

/-- The creation-time standard field. -/
def creationStdCol : DefaultCol :=
  { fieldname := "creation", label := "Created On", fieldtype := "Datetime", width := 140,
    in_list_view := false, sortable := true, filterable := true, idx := 9999 }

/-- The modification-time standard field. -/
def modifiedStdCol : DefaultCol :=
  { fieldname := "modified", label := "Last Modified", fieldtype := "Datetime", width := 140,
    in_list_view := false, sortable := true, filterable := true, idx := 10000 }

/-- The three standard fields _get_doctype_fields appends. -/
def columnStandardFields : List DefaultCol := [nameStdCol, creationStdCol, modifiedStdCol]

/-- Stable insert for sorting by idx. -/
def insertIdx (c : DefaultCol) : List DefaultCol → List DefaultCol
  | [] => [c]
  | d :: tl => if c.idx ≤ d.idx then c :: d :: tl else d :: insertIdx c tl

/-- fields.sort(key=idx): a stable ascending sort. -/
def sortByIdx (l : List DefaultCol) : List DefaultCol := l.foldr insertIdx []

/-- ColumnService._get_doctype_fields = ColumnService.get_default_columns:
convert the kept declared fields, append the standard three, sort by idx. -/
def get_default_columns (schema : List SchemaField) : List DefaultCol :=
  sortByIdx ((keptFields schema).map toDefaultCol ++ columnStandardFields)

/-- One column preference entry of a defaulted document. -/
structure ColPref where
  visible : Bool
  width : Nat
  order : Nat
  pinned : Option String
  label : String
  deriving DecidableEq

/-- The filters section of a defaulted document. -/
structure FiltersState where
  active_filters : List Json
  saved_filters : List Json
  quick_filters : JObj
  deriving DecidableEq

/-- The pagination section. -/
structure PaginationState where
  page_size : Nat
  current_page : Nat
  deriving DecidableEq

/-- The sorting section. -/
structure SortingState where
  field : String
  order : String
  deriving DecidableEq

/-- The view_settings section of a defaulted document. -/
structure ViewSettings where
  show_statistics : Bool
  compact_view : Bool
  auto_refresh : Bool
  refresh_interval : Nat
  deriving DecidableEq

/-- A full preference document as _create_default_preferences builds it. -/
structure PrefDocument where
  columns : List (String × ColPref)
  filters : FiltersState
  pagination : PaginationState
  sorting : SortingState
  view_settings : ViewSettings
  last_updated : Nat
  version : String
  deriving DecidableEq

/-- The column-preference entry built for a list-visible default column:
visible, the column width (the type-based default), order = idx, no pin. -/
def defColPrefEntry (c : DefaultCol) : String × ColPref :=
  (c.fieldname,
    { visible := true, width := c.width, order := c.idx, pinned := none, label := c.label })

/-- The column_prefs loop of _create_default_preferences: every default
column flagged in_list_view becomes a visible entry of the dict. -/
def buildColumnPrefs (cols : List DefaultCol) : List (String × ColPref) :=
  cols.foldl
    (fun acc c =>
      if c.in_list_view then alSet (defColPrefEntry c).1 (defColPrefEntry c).2 acc
      else acc)
    []

/-- PreferenceService._create_default_preferences: column defaults from
the metadata-derived default columns, plus the fixed skeleton. -/
def create_default_preferences (schema : List SchemaField) (now : Nat) : PrefDocument :=
  { columns := buildColumnPrefs (get_default_columns schema),
    filters := { active_filters := [], saved_filters := [], quick_filters := .nil },
    pagination := { page_size := 20, current_page := 1 },
    sorting := { field := "modified", order := "desc" },
    view_settings := { show_statistics := true, compact_view := false, auto_refresh := false, refresh_interval := 30 },
    last_updated := now,
    version := "1.0" }

/-! ## ColumnVirtualizationService (column_virtualization_service.py) -/

/-- A column descriptor as the virtualization service reads it: the
width may be absent (column.get("width", 150) then applies the service
default of 150). -/
structure VirtCol where
  width : Option Nat
  fieldname : String
  deriving DecidableEq

/-- column.get("width", self.default_column_width). -/
def virtWidth (c : VirtCol) : Nat := c.width.getD 150

/-- The cumulative (left, right) positions starting at the given left. -/
def calcPositionsFrom (left : Nat) : List VirtCol → List (Nat × Nat)
  | [] => []
  | c :: tl => (left, left + virtWidth c) :: calcPositionsFrom (left + virtWidth c) tl

/-- ColumnVirtualizationService._calculate_column_positions. -/
def calculate_column_positions (cols : List VirtCol) : List (Nat × Nat) :=
  calcPositionsFrom 0 cols

/-- ColumnVirtualizationService._find_visible_columns: the sorted indices
of the columns intersecting the viewport (right > viewport_left and
left < viewport_right); iteration over the index-keyed dict is in index
order, so the collected list is already ascending. -/
def find_visible_columns (positions : List (Nat × Nat))
    (viewport_left viewport_width : Int) : List Nat :=
  (positions.enum.filter
    (fun p => viewport_left < (p.2.2 : Int) && (p.2.1 : Int) < viewport_left + viewport_width)).map
    Prod.fst

/-- ColumnVirtualizationService._add_buffer_columns: the visible range
widened by the buffer on each side, clamped to [0, number of columns). -/
def add_buffer_columns (visible : List Nat) (numCols : Nat) (buffer : Nat) : List Nat :=
  match visible with
  | [] => []
  | v :: tl =>
    let lo := tl.foldl Nat.min v
    let hi := tl.foldl Nat.max v
    let bufStart := lo - buffer
    let bufEnd := Nat.min numCols (hi + buffer + 1)
    List.range' bufStart (bufEnd - bufStart)


/-- Rest-input guard for the decoder on number output: the continuation
must not start with a digit (serializer continuations are separators). -/
def okTail : List Char → Bool
  | [] => true
  | c :: _ => !c.isDigit

/-- Characters that can start serializer output. -/
def headOk (c : Char) : Bool :=
  c.isDigit || c = '-' || c = '"' || c = '[' || c = '{' || c = 'n' || c = 't' || c = 'f'

mutual
/-- Mutual structural induction over JSON values (proof device). -/
def jmiV {P : Json → Prop} {Q : JArr → Prop} {R : JObj → Prop}
    (hnull : P .null) (hbool : ∀ b, P (.bool b)) (hnum : ∀ n, P (.num n))
    (hstr : ∀ s, P (.str s)) (harr : ∀ xs, Q xs → P (.arr xs))
    (hobj : ∀ kvs, R kvs → P (.obj kvs)) (hanil : Q .nil)
    (hacons : ∀ x tl, P x → Q tl → Q (.cons x tl)) (honil : R .nil)
    (hocons : ∀ k v tl, P v → R tl → R (.cons k v tl)) : ∀ j, P j
  | .null => hnull
  | .bool b => hbool b
  | .num n => hnum n
  | .str s => hstr s
  | .arr xs => harr xs (jmiA hnull hbool hnum hstr harr hobj hanil hacons honil hocons xs)
  | .obj kvs => hobj kvs (jmiO hnull hbool hnum hstr harr hobj hanil hacons honil hocons kvs)
/-- Array part of the mutual induction. -/
def jmiA {P : Json → Prop} {Q : JArr → Prop} {R : JObj → Prop}
    (hnull : P .null) (hbool : ∀ b, P (.bool b)) (hnum : ∀ n, P (.num n))
    (hstr : ∀ s, P (.str s)) (harr : ∀ xs, Q xs → P (.arr xs))
    (hobj : ∀ kvs, R kvs → P (.obj kvs)) (hanil : Q .nil)
    (hacons : ∀ x tl, P x → Q tl → Q (.cons x tl)) (honil : R .nil)
    (hocons : ∀ k v tl, P v → R tl → R (.cons k v tl)) : ∀ xs, Q xs
  | .nil => hanil
  | .cons x tl => hacons x tl (jmiV hnull hbool hnum hstr harr hobj hanil hacons honil hocons x)
      (jmiA hnull hbool hnum hstr harr hobj hanil hacons honil hocons tl)
/-- Object part of the mutual induction. -/
def jmiO {P : Json → Prop} {Q : JArr → Prop} {R : JObj → Prop}
    (hnull : P .null) (hbool : ∀ b, P (.bool b)) (hnum : ∀ n, P (.num n))
    (hstr : ∀ s, P (.str s)) (harr : ∀ xs, Q xs → P (.arr xs))
    (hobj : ∀ kvs, R kvs → P (.obj kvs)) (hanil : Q .nil)
    (hacons : ∀ x tl, P x → Q tl → Q (.cons x tl)) (honil : R .nil)
    (hocons : ∀ k v tl, P v → R tl → R (.cons k v tl)) : ∀ kvs, R kvs
  | .nil => honil
  | .cons k v tl => hocons k v tl (jmiV hnull hbool hnum hstr harr hobj hanil hacons honil hocons v)
      (jmiO hnull hbool hnum hstr harr hobj hanil hacons honil hocons tl)
end

/-! # Theorems -/

/-! ## Association-list lemmas -/

theorem alGet_self {α : Type} (k : String) (v : α) (tl : List (String × α)) :
    alGet k ((k, v) :: tl) = some v := by
  simp [alGet]

theorem alGet_alSet_self {α : Type} (k : String) (v : α) (l : List (String × α)) :
    alGet k (alSet k v l) = some v := by
  induction l with
  | nil => simp [alSet, alGet]
  | cons p tl ih =>
    obtain ⟨k2, v2⟩ := p
    by_cases h : k2 = k
    · subst h
      simp [alSet, alGet]
    · simp [alSet, alGet, h, ih]

theorem alSet_fresh {α : Type} (k : String) (v : α) (l : List (String × α))
    (h : k ∉ l.map Prod.fst) : alSet k v l = l ++ [(k, v)] := by
  induction l with
  | nil => rfl
  | cons p tl ih =>
    obtain ⟨k2, v2⟩ := p
    simp only [List.map_cons, List.mem_cons] at h
    push_neg at h
    have hne : ¬ k2 = k := fun hh => h.1 hh.symm
    simp [alSet, hne, ih h.2]

theorem alDel_head {α : Type} (k : String) (v : α) (tl : List (String × α)) :
    alDel k ((k, v) :: tl) = tl := by
  simp [alDel]

/-! ## C1: tier-1 eviction by oldest created_at -/

theorem argminCreated_head (tl : List (String × MemEntry)) (k : String) (e : MemEntry)
    (hnd : (((k, e) :: tl).map Prod.fst).Nodup)
    (hmono : ((k, e) :: tl).Pairwise (fun a b => a.2.created_at < b.2.created_at)) :
    argminCreated ((k, e) :: tl) = some k := by
  induction tl generalizing k e with
  | nil => rfl
  | cons p tl2 ih =>
    obtain ⟨k2, e2⟩ := p
    have h1 : argminCreated ((k2, e2) :: tl2) = some k2 := by
      apply ih
      · exact (List.nodup_cons.mp hnd).2
      · exact (List.pairwise_cons.mp hmono).2
    have hlt : e.created_at < e2.created_at :=
      (List.pairwise_cons.mp hmono).1 (k2, e2) (List.mem_cons_self _ _)
    have hn : ¬ e2.created_at < e.created_at := by omega
    have hstep : argminCreated ((k, e) :: (k2, e2) :: tl2) =
        match argminCreated ((k2, e2) :: tl2) with
        | none => some k
        | some k3 =>
          match alGet k3 ((k2, e2) :: tl2) with
          | none => some k
          | some e3 => if e3.created_at < e.created_at then some k3 else some k := rfl
    rw [hstep, h1]
    simp [alGet_self, hn]

theorem insertSeq_fill (limit : Nat) (items : List (String × Nat))
    (mem : List (String × MemEntry))
    (hlen : mem.length + items.length ≤ limit)
    (hdisj : ∀ p ∈ items, p.1 ∉ mem.map Prod.fst)
    (hnd : (items.map Prod.fst).Nodup) :
    insertSeq limit items mem =
      mem ++ items.map (fun p => (p.1, ⟨Json.null, p.2, p.2 + defaultTTL⟩)) := by
  induction items generalizing mem with
  | nil => simp [insertSeq]
  | cons it tl ih =>
    obtain ⟨k, t⟩ := it
    obtain ⟨hk, hndtl⟩ := List.nodup_cons.mp hnd
    simp only [List.length_cons] at hlen
    have hroom : ¬ limit ≤ mem.length := by omega
    have hfresh : k ∉ mem.map Prod.fst := hdisj (k, t) (List.mem_cons_self _ _)
    have hstep : set_memory_cache limit t defaultTTL k Json.null mem =
        mem ++ [(k, ⟨Json.null, t, t + defaultTTL⟩)] := by
      simp only [set_memory_cache, if_neg hroom]
      exact alSet_fresh k _ mem hfresh
    have hrec := ih (mem ++ [(k, ⟨Json.null, t, t + defaultTTL⟩)])
      (by simp only [List.length_append, List.length_singleton]; omega)
      (by
        intro p hp
        simp only [List.map_append, List.mem_append, List.map_cons, List.map_nil,
          List.mem_singleton]
        push_neg
        refine ⟨hdisj p (List.mem_cons_of_mem _ hp), ?_⟩
        have hpmem : p.1 ∈ tl.map Prod.fst := List.mem_map_of_mem Prod.fst hp
        intro hEq
        exact hk (hEq ▸ hpmem))
      hndtl
    calc insertSeq limit ((k, t) :: tl) mem
        = insertSeq limit tl (set_memory_cache limit t defaultTTL k Json.null mem) := rfl
      _ = insertSeq limit tl (mem ++ [(k, ⟨Json.null, t, t + defaultTTL⟩)]) := by rw [hstep]
      _ = mem ++ (k, ⟨Json.null, t, t + defaultTTL⟩) ::
            tl.map (fun p => (p.1, ⟨Json.null, p.2, p.2 + defaultTTL⟩)) := by
          rw [hrec]; simp
      _ = _ := by simp

/-- C1: with the tier-1 cache at its size limit, inserting limit + 1
distinct keys (at strictly increasing creation times, from empty) leaves
exactly limit entries resident, and the evicted entry is the one with the
earliest created_at among those resident before the over-limit insertion:
the survivors are exactly the keys after the first, in insertion order. -/
theorem tier1_eviction_oldest_created (limit : Nat) (items : List (String × Nat))
    (hpos : 0 < limit)
    (hlen : items.length = limit + 1)
    (hnd : (items.map Prod.fst).Nodup)
    (hmono : items.Pairwise (fun a b => a.2 < b.2)) :
    (insertSeq limit items []).length = limit ∧
    (insertSeq limit items []).map Prod.fst = (items.map Prod.fst).drop 1 := by
  have hne : items ≠ [] := by
    intro h
    rw [h] at hlen
    simp only [List.length_nil] at hlen
    omega
  obtain ⟨front, last, hsplit⟩ : ∃ front last, items = front ++ [last] :=
    ⟨items.dropLast, items.getLast hne, (List.dropLast_append_getLast hne).symm⟩
  have hfrontlen : front.length = limit := by
    rw [hsplit] at hlen
    simp only [List.length_append, List.length_singleton] at hlen
    omega
  subst hsplit
  have hndf : (front.map Prod.fst).Nodup := by
    simp only [List.map_append, List.nodup_append] at hnd
    exact hnd.1
  have hmonof : front.Pairwise (fun a b => a.2 < b.2) :=
    (List.pairwise_append.mp hmono).1
  have hfill : insertSeq limit front [] =
      front.map (fun p => (p.1, ⟨Json.null, p.2, p.2 + defaultTTL⟩)) := by
    simpa using insertSeq_fill limit front []
      (by simp only [List.length_nil]; omega) (by simp) hndf
  have hrun : insertSeq limit (front ++ [last]) [] =
      set_memory_cache limit last.2 defaultTTL last.1 Json.null (insertSeq limit front []) := by
    simp [insertSeq, List.foldl_append]
  cases front with
  | nil =>
    rw [List.length_nil] at hfrontlen
    omega
  | cons p0 ftl =>
    obtain ⟨k0, t0⟩ := p0
    set entryOf : String × Nat → String × MemEntry :=
      fun p => (p.1, ⟨Json.null, p.2, p.2 + defaultTTL⟩) with hEntryOf
    have hmemEq : insertSeq limit ((k0, t0) :: ftl) [] =
        (k0, ⟨Json.null, t0, t0 + defaultTTL⟩) :: ftl.map entryOf := by
      rw [hfill]; rfl
    have hcastEq : ((k0, ⟨Json.null, t0, t0 + defaultTTL⟩) :: ftl.map entryOf) =
        ((k0, t0) :: ftl).map entryOf := rfl
    have hndm : (((k0, ⟨Json.null, t0, t0 + defaultTTL⟩) :: ftl.map entryOf).map
        Prod.fst).Nodup := by
      rw [hcastEq]
      have : (((k0, t0) :: ftl).map entryOf).map Prod.fst =
          ((k0, t0) :: ftl).map Prod.fst := by
        simp [hEntryOf]
      rw [this]
      exact hndf
    have hmonom : ((k0, ⟨Json.null, t0, t0 + defaultTTL⟩) :: ftl.map entryOf).Pairwise
        (fun a b => a.2.created_at < b.2.created_at) := by
      rw [hcastEq]
      refine List.Pairwise.map entryOf ?_ hmonof
      intro a b hab
      simpa [hEntryOf] using hab
    have hargmin : argminCreated
        ((k0, ⟨Json.null, t0, t0 + defaultTTL⟩) :: ftl.map entryOf) = some k0 :=
      argminCreated_head _ _ _ hndm hmonom
    have hatlimit : limit ≤
        ((k0, ⟨Json.null, t0, t0 + defaultTTL⟩) :: ftl.map entryOf).length := by
      have hl : ((k0, ⟨Json.null, t0, t0 + defaultTTL⟩) :: ftl.map entryOf).length =
          ((k0, t0) :: ftl).length := by
        simp
      omega
    have hlastfresh : last.1 ∉ (ftl.map entryOf).map Prod.fst := by
      have h2 : (ftl.map entryOf).map Prod.fst = ftl.map Prod.fst := by simp [hEntryOf]
      rw [h2]
      simp only [List.map_append, List.nodup_append] at hnd
      intro hmem
      exact hnd.2.2 (List.mem_cons_of_mem _ hmem) (by simp)
    have hfinal : insertSeq limit (((k0, t0) :: ftl) ++ [last]) [] =
        ftl.map entryOf ++ [(last.1, ⟨Json.null, last.2, last.2 + defaultTTL⟩)] := by
      rw [hrun, hmemEq]
      simp only [set_memory_cache, if_pos hatlimit, hargmin, alDel_head]
      exact alSet_fresh _ _ _ hlastfresh
    constructor
    · rw [hfinal]
      simp only [List.length_append, List.length_map, List.length_singleton]
      have : ftl.length + 1 = limit := by simpa using hfrontlen
      omega
    · rw [hfinal]
      simp [hEntryOf]

/-- Witness for C1 at limit 2 with keys a, b, c inserted at times 0, 1, 2:
two entries remain and they are b and c (a, the oldest-created, was
evicted). -/
theorem tier1_eviction_oldest_created_witness :
    0 < 2 ∧
    (insertSeq 2 [("a", 0), ("b", 1), ("c", 2)] []).length = 2 ∧
    (insertSeq 2 [("a", 0), ("b", 1), ("c", 2)] []).map Prod.fst =
      ([("a", 0), ("b", 1), ("c", 2)].map (Prod.fst (α := String) (β := Nat))).drop 1 :=
  ⟨by decide,
    tier1_eviction_oldest_created 2 [("a", 0), ("b", 1), ("c", 2)]
      (by decide) (by decide) (by decide) (by decide)⟩

/-! ## C10: a tier-2 hit repopulates tier 1 with the full default TTL -/

/-- C10: when get misses tier 1 and hits tier 2, the value is written
back to tier 1 with expires_at = now + default TTL (3600), not the
remaining tier-2 lifetime; so a later get before that inflated expiry
still serves the value from tier 1, even at a time t2 past the expiry
rexp that was requested when the value was set. -/
theorem tier2_hit_repopulates_full_ttl (limit : Nat) (st : CacheState)
    (t1 t2 rexp : Nat) (key : String) (v : Json)
    (hmem : alGet (fullKey key) st.memory = none)
    (hred : alGet (fullKey key) st.redis = some ⟨.good v, rexp⟩)
    (hlive : t1 < rexp)
    (_hexpired : rexp ≤ t2)
    (hlater : t2 < t1 + defaultTTL) :
    (cache_get limit st t1 key).1 = some v ∧
    alGet (fullKey key) ((cache_get limit st t1 key).2).memory =
      some ⟨v, t1, t1 + defaultTTL⟩ ∧
    (cache_get limit ((cache_get limit st t1 key).2) t2 key).1 = some v := by
  have hget1 : cache_get limit st t1 key =
      (some v,
        CacheState.mk (set_memory_cache limit t1 defaultTTL (fullKey key) v st.memory)
          st.redis) := by
    simp [cache_get, hmem, redisLookup, hred, hlive]
  have hmem2 : alGet (fullKey key)
      (set_memory_cache limit t1 defaultTTL (fullKey key) v st.memory) =
      some ⟨v, t1, t1 + defaultTTL⟩ := by
    simp only [set_memory_cache]
    exact alGet_alSet_self _ _ _
  refine ⟨by rw [hget1], by rw [hget1]; exact hmem2, ?_⟩
  rw [hget1]
  simp [cache_get, hmem2, hlater]

/-- Witness for C10: value set to expire at 10, read at t1 = 9 via tier 2,
then still served from tier 1 at t2 = 100 > 10. -/
theorem tier2_hit_repopulates_full_ttl_witness :
    (cache_get 10 ⟨[], [("column_management:k", ⟨.good (.num 7), 10⟩)]⟩ 9 "k").1 =
      some (.num 7) ∧
    alGet (fullKey "k")
      ((cache_get 10 ⟨[], [("column_management:k", ⟨.good (.num 7), 10⟩)]⟩ 9 "k").2).memory =
      some ⟨.num 7, 9, 9 + defaultTTL⟩ ∧
    (cache_get 10
      ((cache_get 10 ⟨[], [("column_management:k", ⟨.good (.num 7), 10⟩)]⟩ 9 "k").2)
      100 "k").1 = some (.num 7) :=
  tier2_hit_repopulates_full_ttl 10 ⟨[], [("column_management:k", ⟨.good (.num 7), 10⟩)]⟩
    9 100 10 "k" (.num 7) (by decide) (by decide) (by decide) (by decide) (by decide)

/-! ## C8: the standard-field augmentation is not idempotent -/

/-- C8 counterexample: applying the augmentation twice does not yield the
same field list as applying it once — the five synthetic standard fields
are appended again, duplicating every one of them (shown at the empty
schema: ten entries versus five). -/
theorem augment_twice_counterexample :
    augmentWithStandardFields (augmentWithStandardFields []) ≠
      augmentWithStandardFields [] ∧
    (augmentWithStandardFields (augmentWithStandardFields [])).length = 10 ∧
    (augmentWithStandardFields []).length = 5 := by
  refine ⟨?_, by decide, by decide⟩
  intro h
  have := congrArg List.length h
  simp [augmentWithStandardFields] at this
  exact absurd this (by decide)

/-- C8 amended: the augmentation is a deterministic append of the five
synthetic standard fields — one application adds each of them exactly
once — but it is not idempotent: a second application appends five
duplicate entries. -/
theorem augment_deterministic_not_idempotent (fields : List MetaField) :
    (augmentWithStandardFields fields).length = fields.length + 5 ∧
    (∀ sf ∈ get_standard_fields,
      (augmentWithStandardFields fields).count sf = fields.count sf + 1) ∧
    augmentWithStandardFields (augmentWithStandardFields fields) ≠
      augmentWithStandardFields fields := by
  refine ⟨?_, ?_, ?_⟩
  · have h5 : get_standard_fields.length = 5 := by decide
    simp only [augmentWithStandardFields, List.length_append]
    omega
  · intro sf hsf
    have hone : get_standard_fields.count sf = 1 := by
      fin_cases hsf <;> decide
    simp [augmentWithStandardFields, List.count_append, hone]
  · intro h
    have := congrArg List.length h
    simp [augmentWithStandardFields] at this
    exact absurd this (by decide)

/-- Witness for the amended C8 at the empty schema and the identifier
field. -/
theorem augment_deterministic_not_idempotent_witness :
    (augmentWithStandardFields []).length = ([] : List MetaField).length + 5 ∧
    (augmentWithStandardFields []).count
        { fieldname := "name", label := "ID", fieldtype := "Data", hidden := false,
          in_list_view := true, in_standard_filter := true, idx := 0,
          sortable := true, filterable := true } =
      ([] : List MetaField).count
        { fieldname := "name", label := "ID", fieldtype := "Data", hidden := false,
          in_list_view := true, in_standard_filter := true, idx := 0,
          sortable := true, filterable := true } + 1 ∧
    augmentWithStandardFields (augmentWithStandardFields []) ≠
      augmentWithStandardFields [] :=
  ⟨(augment_deterministic_not_idempotent []).1,
    (augment_deterministic_not_idempotent []).2.1 _ (by decide),
    (augment_deterministic_not_idempotent []).2.2⟩

/-! ## C2: get_or_set runs the supplier once per call under interleaving -/

/-- C2 counterexample: two get_or_set calls on the same uncached key,
each reading the cache before either writes (the source holds no lock
around the read-compute-write sequence), invoke the supplier twice, not
at most once; both calls complete normally. -/
theorem get_or_set_interleaved_counterexample :
    (runTwoGos 10 0 "k" (some (.num 1)) none
      [true, false, true, true, false, false] (⟨[], []⟩, 0, .start, .start)).2.1 = 2 ∧
    ¬ ((runTwoGos 10 0 "k" (some (.num 1)) none
      [true, false, true, true, false, false] (⟨[], []⟩, 0, .start, .start)).2.1 ≤ 1) ∧
    (runTwoGos 10 0 "k" (some (.num 1)) none
      [true, false, true, true, false, false] (⟨[], []⟩, 0, .start, .start)).2.2 =
      (.finished (some (.num 1)), .finished (some (.num 1))) := by
  decide

/-- C2 amended: for sequential (non-overlapping) calls the claim holds:
a get_or_set on an uncached key runs the supplier, caches and returns its
non-None value, and any later get_or_set on that key before the entry
expires performs no supplier computation at all (whatever its supplier
is) and returns the cached value. Overlapping calls that read before the
first write may each run the supplier (see the counterexample). -/
theorem get_or_set_sequential_no_recompute (limit : Nat) (st : CacheState)
    (t1 t2 : Nat) (key : String) (w : Json) (expire : Option Nat)
    (hmiss : (cache_get limit st t1 key).1 = none)
    (hfresh : t2 < t1 + ttlOf expire) :
    (get_or_set limit st t1 key (some w) expire).1 = some w ∧
    (get_or_set limit st t1 key (some w) expire).2.2 = true ∧
    ∀ sup2 : Option Json,
      get_or_set limit ((get_or_set limit st t1 key (some w) expire).2.1) t2 key sup2 expire =
        (some w, (get_or_set limit st t1 key (some w) expire).2.1, false) := by
  rcases hc : cache_get limit st t1 key with ⟨r, st1⟩
  have hr : r = none := by
    have := hmiss
    rw [hc] at this
    exact this
  subst hr
  have hfirst : get_or_set limit st t1 key (some w) expire =
      (some w, (cache_set limit st1 t1 key w expire).2, true) := by
    simp [get_or_set, hc]
  refine ⟨by rw [hfirst], by rw [hfirst], ?_⟩
  intro sup2
  rw [hfirst]
  have hmem : alGet (fullKey key) ((cache_set limit st1 t1 key w expire).2).memory =
      some ⟨w, t1, t1 + ttlOf expire⟩ := by
    simp only [cache_set, set_memory_cache]
    exact alGet_alSet_self _ _ _
  have hget2 : cache_get limit ((cache_set limit st1 t1 key w expire).2) t2 key =
      (some w, (cache_set limit st1 t1 key w expire).2) := by
    simp [cache_get, hmem, hfresh]
  simp [get_or_set, hget2]

/-- Witness for the amended C2: a fresh cache, one call computing 1, then
a second call with a different supplier returning the cached 1 without
computing. -/
theorem get_or_set_sequential_no_recompute_witness :
    (get_or_set 10 ⟨[], []⟩ 0 "k" (some (.num 1)) none).1 = some (.num 1) ∧
    (get_or_set 10 ⟨[], []⟩ 0 "k" (some (.num 1)) none).2.2 = true ∧
    get_or_set 10 ((get_or_set 10 ⟨[], []⟩ 0 "k" (some (.num 1)) none).2.1) 5 "k"
        (some (.num 2)) none =
      (some (.num 1), (get_or_set 10 ⟨[], []⟩ 0 "k" (some (.num 1)) none).2.1, false) := by
  have h := get_or_set_sequential_no_recompute 10 ⟨[], []⟩ 0 5 "k" (.num 1) none
    (by decide) (by decide)
  exact ⟨h.1, h.2.1, h.2.2 (some (.num 2))⟩

/-! ## C3: delete_pattern versus glob semantics -/

theorem expandStar_no_star (l : List Char) (h : ∀ c ∈ l, c ≠ '*') :
    expandStar l = l := by
  induction l with
  | nil => rfl
  | cons c tl ih =>
    have hc : c ≠ '*' := h c (List.mem_cons_self _ _)
    simp only [expandStar, List.flatMap_cons, if_neg hc]
    have := ih (fun c2 hc2 => h c2 (List.mem_cons_of_mem _ hc2))
    simp only [expandStar] at this
    simp [this]

theorem expandStar_append_star (l : List Char) (h : ∀ c ∈ l, c ≠ '*') :
    expandStar (l ++ ['*']) = l ++ ['.', '*'] := by
  have h1 : expandStar (l ++ ['*']) = expandStar l ++ expandStar ['*'] := by
    simp [expandStar]
  rw [h1, expandStar_no_star l h]
  rfl

theorem parseRegexF_lits_dotstar (l : List Char) : ∀ f : Nat,
    (∀ c ∈ l, regexSpecials.contains c = false ∧ c ≠ '.') → l.length + 2 ≤ f →
    parseRegexF f (l ++ ['.', '*']) = some (l.map RAtom.lit ++ [RAtom.dotStar]) := by
  induction l with
  | nil =>
    intro f h hf
    obtain ⟨f1, rfl⟩ : ∃ f1, f = f1 + 1 := ⟨f - 1, by omega⟩
    obtain ⟨f2, rfl⟩ : ∃ f2, f1 = f2 + 1 := ⟨f1 - 1, by omega⟩
    simp [parseRegexF]
  | cons c tl ih =>
    intro f h hf
    obtain ⟨f1, rfl⟩ : ∃ f1, f = f1 + 1 := ⟨f - 1, by omega⟩
    have hc := h c (List.mem_cons_self _ _)
    have htl := ih f1 (fun c2 hc2 => h c2 (List.mem_cons_of_mem _ hc2))
      (by simp only [List.length_cons] at hf; omega)
    have hcmem : c ∉ regexSpecials := by simpa using hc.1
    simp [parseRegexF, hc.2, hcmem, htl]

theorem parseRegex_lits_dotstar (l : List Char)
    (h : ∀ c ∈ l, regexSpecials.contains c = false ∧ c ≠ '.') :
    parseRegex (l ++ ['.', '*']) = some (l.map RAtom.lit ++ [RAtom.dotStar]) := by
  apply parseRegexF_lits_dotstar l _ h
  simp only [List.length_append, List.length_cons, List.length_nil]
  omega

theorem rmatch_lits_dotstar (l : List Char) : ∀ (f : Nat) (s : List Char),
    l.length + 2 ≤ f →
    rmatchF f (l.map RAtom.lit ++ [RAtom.dotStar]) s = l.isPrefixOf s := by
  induction l with
  | nil =>
    intro f s hf
    obtain ⟨f1, rfl⟩ : ∃ f1, f = f1 + 1 := ⟨f - 1, by omega⟩
    obtain ⟨f2, rfl⟩ : ∃ f2, f1 = f2 + 1 := ⟨f1 - 1, by omega⟩
    simp [rmatchF, List.isPrefixOf]
  | cons c tl ih =>
    intro f s hf
    obtain ⟨f1, rfl⟩ : ∃ f1, f = f1 + 1 := ⟨f - 1, by omega⟩
    cases s with
    | nil => simp [rmatchF, List.isPrefixOf]
    | cons x xs =>
      simp only [List.length_cons] at hf
      have hrec := ih f1 xs (by omega)
      by_cases hx : x = c
      · subst hx
        simp [rmatchF, List.isPrefixOf, hrec]
      · have hxc : (c == x) = false := by
          simp [BEq.beq]
          exact fun hh => hx hh.symm
        simp [rmatchF, List.isPrefixOf, hx, hxc]

theorem match_pattern_eq_isPrefixOf (key fp : String) (P : List Char)
    (hdata : fp.data = P ++ ['*'])
    (hsafe : ∀ c ∈ P, regexSpecials.contains c = false ∧ c ≠ '.') :
    match_pattern key fp = P.isPrefixOf key.data := by
  have hnostar : ∀ c ∈ P, c ≠ '*' := by
    intro c hc hcs
    have := (hsafe c hc).1
    rw [hcs] at this
    simp [regexSpecials] at this
  simp only [match_pattern, hdata, expandStar_append_star P hnostar,
    parseRegex_lits_dotstar P hsafe]
  apply rmatch_lits_dotstar
  simp only [List.length_append, List.length_map, List.length_singleton]
  omega

/-- C3 counterexample: for the glob pattern "a.b:*" (a pattern of the
prefix:* form whose prefix holds a dot), delete_pattern deletes the
resident tier-1 key column_management:axb:k even though that key does not
match the glob: the dot is treated as a regex wildcard, not a literal. -/
theorem delete_pattern_counterexample :
    globStarMatch (cacheNamespace ++ ":" ++ "a.b" ++ ":") "column_management:axb:k" = false ∧
    (delete_pattern
        ⟨[("column_management:axb:k", ⟨.null, 0, 10⟩)], []⟩ "a.b:*").memory = [] := by
  decide

/-- C3 amended: for a glob pattern prefix:* whose prefix holds no regex
metacharacter (no dot and nothing from regexSpecials), delete_pattern
removes exactly the resident tier-1 keys matching the glob: the surviving
memory is the original with precisely the glob-matching keys removed, and
tier 2 is untouched. -/
theorem delete_pattern_glob_exact (st : CacheState) (pfx : String)
    (hsafe : ∀ c ∈ pfx.data, regexSpecials.contains c = false ∧ c ≠ '.') :
    (delete_pattern st (pfx ++ ":*")).memory =
      st.memory.filter
        (fun kv => !(globStarMatch (cacheNamespace ++ ":" ++ pfx ++ ":") kv.1)) ∧
    (delete_pattern st (pfx ++ ":*")).redis = st.redis := by
  set P : String := cacheNamespace ++ ":" ++ pfx ++ ":" with hP
  have hdata : (cacheNamespace ++ ":" ++ (pfx ++ ":*")).data = P.data ++ ['*'] := by
    simp [hP, String.data_append]
  have hsafeP : ∀ c ∈ P.data, regexSpecials.contains c = false ∧ c ≠ '.' := by
    intro c hc
    rw [hP] at hc
    simp only [String.data_append, List.mem_append] at hc
    rcases hc with ((hc | hc) | hc) | hc
    · revert c
      decide
    · revert c
      decide
    · exact hsafe c hc
    · revert c
      decide
  constructor
  · simp only [delete_pattern]
    apply List.filter_congr
    intro kv _
    rw [match_pattern_eq_isPrefixOf kv.1 _ P.data hdata hsafeP]
    rfl
  · rfl

/-- Witness for the amended C3: the pattern columns:Invoice:* deletes
exactly the two keys under that prefix and keeps the other two. -/
theorem delete_pattern_glob_exact_witness :
    ((delete_pattern
        ⟨[("column_management:columns:Invoice:u1", ⟨.null, 0, 10⟩),
          ("column_management:columns:Item:u1", ⟨.num 1, 0, 10⟩),
          ("column_management:columns:Invoice:u2", ⟨.null, 2, 12⟩),
          ("column_management:metadata:doctype:Invoice", ⟨.null, 3, 13⟩)],
          []⟩ ("columns:Invoice" ++ ":*")).memory =
      [("column_management:columns:Invoice:u1", ⟨.null, 0, 10⟩),
       ("column_management:columns:Item:u1", ⟨.num 1, 0, 10⟩),
       ("column_management:columns:Invoice:u2", ⟨.null, 2, 12⟩),
       ("column_management:metadata:doctype:Invoice", ⟨.null, 3, 13⟩)].filter
        (fun kv => !(globStarMatch (cacheNamespace ++ ":" ++ "columns:Invoice" ++ ":") kv.1)) ∧
    (delete_pattern
        ⟨[("column_management:columns:Invoice:u1", ⟨.null, 0, 10⟩),
          ("column_management:columns:Item:u1", ⟨.num 1, 0, 10⟩),
          ("column_management:columns:Invoice:u2", ⟨.null, 2, 12⟩),
          ("column_management:metadata:doctype:Invoice", ⟨.null, 3, 13⟩)],
          []⟩ ("columns:Invoice" ++ ":*")).redis = []) ∧
    [("column_management:columns:Invoice:u1", (⟨.null, 0, 10⟩ : MemEntry)),
     ("column_management:columns:Item:u1", ⟨.num 1, 0, 10⟩),
     ("column_management:columns:Invoice:u2", ⟨.null, 2, 12⟩),
     ("column_management:metadata:doctype:Invoice", ⟨.null, 3, 13⟩)].filter
        (fun kv => !(globStarMatch (cacheNamespace ++ ":" ++ "columns:Invoice" ++ ":") kv.1)) =
      [("column_management:columns:Item:u1", ⟨.num 1, 0, 10⟩),
       ("column_management:metadata:doctype:Invoice", ⟨.null, 3, 13⟩)] :=
  ⟨delete_pattern_glob_exact
    ⟨[("column_management:columns:Invoice:u1", ⟨.null, 0, 10⟩),
      ("column_management:columns:Item:u1", ⟨.num 1, 0, 10⟩),
      ("column_management:columns:Invoice:u2", ⟨.null, 2, 12⟩),
      ("column_management:metadata:doctype:Invoice", ⟨.null, 3, 13⟩)], []⟩
    "columns:Invoice" (by decide), by decide⟩

/-! ## C7: only the backup owner may restore -/

/-- C7: a restore attempted by any (truthy) caller other than the
backup owner raises the authorization error (wrapped by the outer
handler) and restores no record types: the state is unchanged. -/
theorem restore_backup_owner_only (st : SyncState) (backup_name : String)
    (b : PrefBackup) (caller : String)
    (hb : alGet backup_name st.backups = some b)
    (hne : caller ≠ "")
    (hown : caller ≠ b.user) :
    restore_preference_backup st backup_name (some caller) =
      (.error (restoreFailure authorizationMessage), st) := by
  simp only [restore_preference_backup, hb]
  have h2 : b.user ≠ caller := fun h => hown h.symm
  simp [hne, h2]

/-- Witness for C7: mallory cannot restore alice's backup. -/
theorem restore_backup_owner_only_witness :
    restore_preference_backup
        ⟨[("BAK-1", ⟨"alice", "Invoice", "manual",
            .cons "Invoice" (.obj .nil) .nil⟩)], []⟩
        "BAK-1" (some "mallory") =
      (.error (restoreFailure authorizationMessage),
        ⟨[("BAK-1", ⟨"alice", "Invoice", "manual",
            .cons "Invoice" (.obj .nil) .nil⟩)], []⟩) :=
  restore_backup_owner_only
    ⟨[("BAK-1", ⟨"alice", "Invoice", "manual", .cons "Invoice" (.obj .nil) .nil⟩)], []⟩
    "BAK-1" ⟨"alice", "Invoice", "manual", .cons "Invoice" (.obj .nil) .nil⟩ "mallory"
    (by decide) (by decide) (by decide)

/-! ## C4: save rejects out-of-range widths without mutating state -/

theorem validateColumns_ok_width (cols : JObj) :
    validateColumns cols = .ok () →
    ∀ f cp, (f, cp) ∈ cols.entries →
    ∀ w, jsonLookup cp "width" = some w →
    ∃ n : Int, w = .num n ∧ 50 ≤ n ∧ n ≤ 1000 := by
  induction cols using jobjInd with
  | h0 =>
    intro _ f cp hmem
    simp [JObj.entries] at hmem
  | h1 k v tl ih =>
    intro hok f cp hmem w hw
    cases v with
    | obj cpo =>
      rcases hfind : requiredColFields.find? (fun s => !(cpo.hasKey s)) with _ | s
      · rcases hlook : cpo.lookupJ "width" with _ | wj
        · simp [validateColumns, hfind, hlook] at hok
        · cases wj with
          | num n =>
            by_cases hrange : 50 ≤ n ∧ n ≤ 1000
            · have htl : validateColumns tl = .ok () := by
                simpa [validateColumns, hfind, hlook, hrange] using hok
              have hmem2 : (f = k ∧ cp = Json.obj cpo) ∨ (f, cp) ∈ tl.entries := by
                simpa [JObj.entries] using hmem
              rcases hmem2 with ⟨hf, hcp⟩ | htlmem
              · subst hcp
                have : w = .num n := by
                  have : jsonLookup (Json.obj cpo) "width" = some (.num n) := by
                    simp [jsonLookup, hlook]
                  rw [this] at hw
                  exact (Option.some.inj hw).symm
                exact ⟨n, this, hrange.1, hrange.2⟩
              · exact ih htl f cp htlmem w hw
            · simp [validateColumns, hfind, hlook, hrange] at hok
          | null => simp [validateColumns, hfind, hlook] at hok
          | bool b => simp [validateColumns, hfind, hlook] at hok
          | str s => simp [validateColumns, hfind, hlook] at hok
          | arr xs => simp [validateColumns, hfind, hlook] at hok
          | obj kvs2 => simp [validateColumns, hfind, hlook] at hok
      · simp [validateColumns, hfind] at hok
    | null => simp [validateColumns] at hok
    | bool b => simp [validateColumns] at hok
    | num n => simp [validateColumns] at hok
    | str s => simp [validateColumns] at hok
    | arr xs => simp [validateColumns] at hok

/-- C4: for a preference document holding a column entry whose width is
a number outside [50, 1000], save (non-auto) raises and the persisted
documents and the cache are left exactly as they were: validation runs
before any write. -/
theorem save_rejects_invalid_width (st : PrefState) (now : Nat) (user doctype : String)
    (preferences : Json) (cols : JObj) (f : String) (cp : Json) (w : Int)
    (hcols : jsonLookup preferences "columns" = some (.obj cols))
    (hmem : (f, cp) ∈ cols.entries)
    (hw : jsonLookup cp "width" = some (.num w))
    (hbad : w < 50 ∨ 1000 < w) :
    ∃ e, save_user_preferences st now user doctype preferences false = (.error e, st) := by
  rcases hval : validate_preferences preferences with e | u
  · exact ⟨"Failed to save preferences: " ++ e, by simp [save_user_preferences, hval]⟩
  · exfalso
    cases preferences with
    | obj kvs =>
      rcases hfind : requiredSections.find? (fun s => !(kvs.hasKey s)) with _ | s
      · rcases hlook : kvs.lookupJ "columns" with _ | cj
        · simp [jsonLookup, hlook] at hcols
        · have hcj : cj = .obj cols := by
            simpa [jsonLookup, hlook] using hcols
          subst hcj
          have hcolsok : validateColumns cols = .ok () := by
            simpa [validate_preferences, hfind, hlook] using hval
          obtain ⟨n, hn, h50, h1000⟩ :=
            validateColumns_ok_width cols hcolsok f cp hmem (.num w) hw
          have : w = n := by
            cases hn
            rfl
          omega
      · simp [validate_preferences, hfind] at hval
    | null => simp [jsonLookup] at hcols
    | bool b => simp [jsonLookup] at hcols
    | num n => simp [jsonLookup] at hcols
    | str s => simp [jsonLookup] at hcols
    | arr xs => simp [jsonLookup] at hcols

/-- Witness for C4: a document with all five sections whose only column
has width 30 is rejected by save and the empty state is unchanged. -/
theorem save_rejects_invalid_width_witness :
    ∃ e, save_user_preferences ⟨[], []⟩ 0 "u" "Invoice"
        (.obj (.cons "columns"
          (.obj (.cons "f1"
            (.obj (.cons "visible" (.bool true)
              (.cons "width" (.num 30) (.cons "order" (.num 1) .nil)))) .nil))
          (.cons "filters" (.obj .nil)
            (.cons "pagination" (.obj .nil)
              (.cons "sorting" (.obj .nil)
                (.cons "view_settings" (.obj .nil) .nil)))))) false =
      (.error e, ⟨[], []⟩) :=
  save_rejects_invalid_width ⟨[], []⟩ 0 "u" "Invoice" _
    (.cons "f1"
      (.obj (.cons "visible" (.bool true)
        (.cons "width" (.num 30) (.cons "order" (.num 1) .nil)))) .nil)
    "f1"
    (.obj (.cons "visible" (.bool true)
      (.cons "width" (.num 30) (.cons "order" (.num 1) .nil))))
    30 (by decide) (by decide) (by decide) (Or.inl (by decide))

/-! ## C9: viewport windowing -/

theorem calcPositionsFrom_length (cols : List VirtCol) : ∀ left : Nat,
    (calcPositionsFrom left cols).length = cols.length := by
  induction cols with
  | nil => intro left; rfl
  | cons c tl ih => intro left; simp [calcPositionsFrom, ih]

theorem calcPositionsFrom_getElem (cols : List VirtCol) : ∀ (left i : Nat),
    i < cols.length →
    (calcPositionsFrom left cols)[i]? =
      some (left + ((cols.take i).map virtWidth).sum,
        left + ((cols.take (i + 1)).map virtWidth).sum) := by
  induction cols with
  | nil =>
    intro left i h
    simp at h
  | cons c tl ih =>
    intro left i h
    cases i with
    | zero => simp [calcPositionsFrom]
    | succ j =>
      have hj : j < tl.length := by
        simp only [List.length_cons] at h
        omega
      have := ih (left + virtWidth c) j hj
      simp only [calcPositionsFrom, List.getElem?_cons_succ, this,
        List.take_succ_cons, List.map_cons, List.sum_cons]
      simp [Nat.add_assoc]

theorem sum_take_mono (l : List Nat) : ∀ i j : Nat, i ≤ j →
    (l.take i).sum ≤ (l.take j).sum := by
  induction l with
  | nil => intro i j _; simp
  | cons x xs ih =>
    intro i j hij
    cases i with
    | zero => simp
    | succ i2 =>
      cases j with
      | zero => omega
      | succ j2 =>
        simp only [List.take_succ_cons, List.sum_cons]
        have := ih i2 j2 (by omega)
        omega

theorem mem_find_visible (positions : List (Nat × Nat)) (vl vw : Int) (i : Nat) :
    i ∈ find_visible_columns positions vl vw ↔
      ∃ li ri, positions[i]? = some (li, ri) ∧ vl < (ri : Int) ∧ (li : Int) < vl + vw := by
  simp only [find_visible_columns, List.mem_map, List.mem_filter]
  constructor
  · rintro ⟨⟨idx, li, ri⟩, ⟨hmem, hcond⟩, hfst⟩
    simp only at hfst
    subst hfst
    simp only [Bool.and_eq_true, decide_eq_true_eq] at hcond
    exact ⟨li, ri, List.mk_mem_enum_iff_getElem?.mp hmem, hcond.1, hcond.2⟩
  · rintro ⟨li, ri, hget, h1, h2⟩
    exact ⟨(i, (li, ri)), ⟨List.mk_mem_enum_iff_getElem?.mpr hget, by simp [h1, h2]⟩, rfl⟩

theorem foldl_min_spec (tl : List Nat) : ∀ v : Nat,
    tl.foldl Nat.min v ≤ v ∧ (∀ j ∈ tl, tl.foldl Nat.min v ≤ j) ∧
      (tl.foldl Nat.min v = v ∨ tl.foldl Nat.min v ∈ tl) := by
  induction tl with
  | nil => intro v; simp
  | cons x xs ih =>
    intro v
    obtain ⟨h1, h2, h3⟩ := ih (Nat.min v x)
    simp only [List.foldl_cons]
    refine ⟨le_trans h1 (Nat.min_le_left v x), ?_, ?_⟩
    · intro j hj
      rcases List.mem_cons.mp hj with rfl | hj2
      · exact le_trans h1 (Nat.min_le_right v j)
      · exact h2 j hj2
    · rcases h3 with h3 | h3
      · rw [h3]
        by_cases hvx : v ≤ x
        · exact Or.inl (Nat.min_eq_left hvx)
        · have hx : Nat.min v x = x := Nat.min_eq_right (by omega)
          rw [hx]
          exact Or.inr (List.mem_cons_self x xs)
      · exact Or.inr (List.mem_cons_of_mem _ h3)

theorem foldl_max_spec (tl : List Nat) : ∀ v : Nat,
    v ≤ tl.foldl Nat.max v ∧ (∀ j ∈ tl, j ≤ tl.foldl Nat.max v) ∧
      (tl.foldl Nat.max v = v ∨ tl.foldl Nat.max v ∈ tl) := by
  induction tl with
  | nil => intro v; simp
  | cons x xs ih =>
    intro v
    obtain ⟨h1, h2, h3⟩ := ih (Nat.max v x)
    simp only [List.foldl_cons]
    refine ⟨le_trans (Nat.le_max_left v x) h1, ?_, ?_⟩
    · intro j hj
      rcases List.mem_cons.mp hj with rfl | hj2
      · exact le_trans (Nat.le_max_right v j) h1
      · exact h2 j hj2
    · rcases h3 with h3 | h3
      · rw [h3]
        by_cases hvx : v ≤ x
        · have hx : Nat.max v x = x := Nat.max_eq_right hvx
          rw [hx]
          exact Or.inr (List.mem_cons_self x xs)
        · exact Or.inl (Nat.max_eq_left (by omega))
      · exact Or.inr (List.mem_cons_of_mem _ h3)

theorem mem_add_buffer (v : Nat) (tl : List Nat) (numCols buffer i : Nat) :
    i ∈ add_buffer_columns (v :: tl) numCols buffer ↔
      (tl.foldl Nat.min v) - buffer ≤ i ∧
        i < Nat.min numCols ((tl.foldl Nat.max v) + buffer + 1) := by
  simp only [add_buffer_columns, List.mem_range'_1, Nat.min_def]
  split <;> omega

/-- C9: the visible range is exactly the set of column indices whose
pixel extent intersects the viewport (right > viewportLeft and
left < viewportRight); that set is a contiguous inclusive index range;
and the buffered range is the visible range expanded by the buffer count
on each side and clamped to [0, number of columns). -/
theorem viewport_window_ranges (cols : List VirtCol) (vl vw : Int) (buffer : Nat) :
    (∀ i : Nat, i ∈ find_visible_columns (calculate_column_positions cols) vl vw ↔
      ∃ li ri, (calculate_column_positions cols)[i]? = some (li, ri) ∧
        vl < (ri : Int) ∧ (li : Int) < vl + vw) ∧
    (∀ i j k : Nat, i ∈ find_visible_columns (calculate_column_positions cols) vl vw →
      k ∈ find_visible_columns (calculate_column_positions cols) vl vw →
      i ≤ j → j ≤ k →
      j ∈ find_visible_columns (calculate_column_positions cols) vl vw) ∧
    (find_visible_columns (calculate_column_positions cols) vl vw = [] →
      add_buffer_columns (find_visible_columns (calculate_column_positions cols) vl vw)
        cols.length buffer = []) ∧
    (find_visible_columns (calculate_column_positions cols) vl vw ≠ [] →
      ∃ lo hi, lo ∈ find_visible_columns (calculate_column_positions cols) vl vw ∧
        hi ∈ find_visible_columns (calculate_column_positions cols) vl vw ∧
        (∀ j ∈ find_visible_columns (calculate_column_positions cols) vl vw,
          lo ≤ j ∧ j ≤ hi) ∧
        ∀ i : Nat,
          i ∈ add_buffer_columns
              (find_visible_columns (calculate_column_positions cols) vl vw)
              cols.length buffer ↔
            lo - buffer ≤ i ∧ i < Nat.min cols.length (hi + buffer + 1)) := by
  refine ⟨fun i => mem_find_visible _ vl vw i, ?_, ?_, ?_⟩
  · intro i j k hi hk hij hjk
    rw [mem_find_visible] at hi hk ⊢
    obtain ⟨li, ri, hgeti, hri, hli⟩ := hi
    obtain ⟨lk, rk, hgetk, hrk, hlk⟩ := hk
    have hilen : i < cols.length := by
      obtain ⟨hlt, -⟩ := List.getElem?_eq_some.mp hgeti
      rwa [calculate_column_positions, calcPositionsFrom_length] at hlt
    have hklen : k < cols.length := by
      obtain ⟨hlt, -⟩ := List.getElem?_eq_some.mp hgetk
      rwa [calculate_column_positions, calcPositionsFrom_length] at hlt
    have hjlen : j < cols.length := by omega
    have hgi := calcPositionsFrom_getElem cols 0 i hilen
    have hgj := calcPositionsFrom_getElem cols 0 j hjlen
    have hgk := calcPositionsFrom_getElem cols 0 k hklen
    rw [calculate_column_positions] at hgeti hgetk
    rw [hgi] at hgeti
    rw [hgk] at hgetk
    simp only [Option.some.injEq, Prod.mk.injEq] at hgeti hgetk
    obtain ⟨hli2, hri2⟩ := hgeti
    obtain ⟨hlk2, hrk2⟩ := hgetk
    simp only [Nat.zero_add] at hli2 hri2 hlk2 hrk2
    refine ⟨((cols.take j).map virtWidth).sum, ((cols.take (j + 1)).map virtWidth).sum,
      by rw [calculate_column_positions, hgj]; simp, ?_, ?_⟩
    · -- vl < r_j since r_i <= r_j
      have hmono : ((cols.take (i + 1)).map virtWidth).sum ≤
          ((cols.take (j + 1)).map virtWidth).sum := by
        rw [List.map_take, List.map_take]
        exact sum_take_mono _ (i + 1) (j + 1) (by omega)
      have h1 : (ri : Int) ≤ (((cols.take (j + 1)).map virtWidth).sum : Int) := by
        rw [← hri2]
        exact_mod_cast hmono
      omega
    · -- l_j <= l_k < vl + vw
      have hmono : ((cols.take j).map virtWidth).sum ≤
          ((cols.take k).map virtWidth).sum := by
        rw [List.map_take, List.map_take]
        exact sum_take_mono _ j k (by omega)
      have h1 : (((cols.take j).map virtWidth).sum : Int) ≤ (lk : Int) := by
        rw [← hlk2]
        exact_mod_cast hmono
      omega
  · intro hempty
    rw [hempty]
    rfl
  · intro hne
    rcases hvis : find_visible_columns (calculate_column_positions cols) vl vw with _ | ⟨v, tl⟩
    · exact absurd hvis hne
    · obtain ⟨hminle, hminall, hminmem⟩ := foldl_min_spec tl v
      obtain ⟨hmaxle, hmaxall, hmaxmem⟩ := foldl_max_spec tl v
      refine ⟨tl.foldl Nat.min v, tl.foldl Nat.max v, ?_, ?_, ?_, ?_⟩
      · rcases hminmem with h | h
        · rw [h]; exact List.mem_cons_self _ _
        · exact List.mem_cons_of_mem _ h
      · rcases hmaxmem with h | h
        · rw [h]; exact List.mem_cons_self _ _
        · exact List.mem_cons_of_mem _ h
      · intro j hj
        rcases List.mem_cons.mp hj with rfl | hj2
        · exact ⟨hminle, hmaxle⟩
        · exact ⟨hminall j hj2, hmaxall j hj2⟩
      · intro i
        exact mem_add_buffer v tl cols.length buffer i

/-- Witness for C9: ten columns of width 100, viewport [520, 570) fully
inside column 5, buffer 2: column 5 is visible and the buffered range is
[3, 7] (indices 3, 4, 5, 6, 7). -/
theorem viewport_window_ranges_witness :
    5 ∈ find_visible_columns
        (calculate_column_positions (List.replicate 10 ⟨some 100, "f"⟩)) 520 50 ∧
    add_buffer_columns
        (find_visible_columns
          (calculate_column_positions (List.replicate 10 ⟨some 100, "f"⟩)) 520 50)
        (List.replicate 10 (⟨some 100, "f"⟩ : VirtCol)).length 2 = [3, 4, 5, 6, 7] :=
  ⟨((viewport_window_ranges (List.replicate 10 ⟨some 100, "f"⟩) 520 50 2).1 5).mpr
      ⟨500, 600, by decide, by decide, by decide⟩,
    by decide⟩

/-! ## C6: defaulted preference documents -/

theorem insertIdx_le_head (c d : DefaultCol) (tl : List DefaultCol)
    (h : c.idx ≤ d.idx) : insertIdx c (d :: tl) = c :: d :: tl := by
  simp [insertIdx, h]

theorem sortByIdx_append_std (A : List DefaultCol)
    (hbound : ∀ c ∈ A, 1 ≤ c.idx ∧ c.idx ≤ 9998)
    (hsorted : A.Pairwise (fun a b => a.idx ≤ b.idx)) :
    sortByIdx (A ++ columnStandardFields) =
      nameStdCol :: (A ++ [creationStdCol, modifiedStdCol]) := by
  induction A with
  | nil => decide
  | cons a A2 ih =>
    obtain ⟨ha1, ha2⟩ := hbound a (List.mem_cons_self _ _)
    have hle : ∀ b ∈ A2, a.idx ≤ b.idx := (List.pairwise_cons.mp hsorted).1
    have hrec := ih (fun c hc => hbound c (List.mem_cons_of_mem _ hc))
      (List.pairwise_cons.mp hsorted).2
    have hfold : sortByIdx ((a :: A2) ++ columnStandardFields) =
        insertIdx a (sortByIdx (A2 ++ columnStandardFields)) := rfl
    rw [hfold, hrec]
    have hnotname : ¬ a.idx ≤ nameStdCol.idx := by
      simp only [nameStdCol]
      omega
    simp only [insertIdx, if_neg hnotname]
    cases A2 with
    | nil =>
      have : a.idx ≤ creationStdCol.idx := by
        simp only [creationStdCol]
        omega
      simp [insertIdx_le_head a creationStdCol _ this]
    | cons b A3 =>
      have : a.idx ≤ b.idx := hle b (List.mem_cons_self _ _)
      simp [insertIdx_le_head a b _ this]

theorem buildColumnPrefs_fold (cols : List DefaultCol) : ∀ acc : List (String × ColPref),
    (cols.map DefaultCol.fieldname).Nodup →
    (∀ c ∈ cols, c.in_list_view = true → c.fieldname ∉ acc.map Prod.fst) →
    cols.foldl
      (fun acc c =>
        if c.in_list_view then alSet (defColPrefEntry c).1 (defColPrefEntry c).2 acc
        else acc) acc =
      acc ++ (cols.filter (fun c => c.in_list_view)).map defColPrefEntry := by
  induction cols with
  | nil => intro acc _ _; simp
  | cons c tl ih =>
    intro acc hnd hdisj
    obtain ⟨hc, hndtl⟩ := List.nodup_cons.mp hnd
    by_cases hilv : c.in_list_view = true
    · have hfresh : (defColPrefEntry c).1 ∉ acc.map Prod.fst :=
        hdisj c (List.mem_cons_self _ _) hilv
      have hstep : alSet (defColPrefEntry c).1 (defColPrefEntry c).2 acc =
          acc ++ [defColPrefEntry c] := alSet_fresh _ _ _ hfresh
      have hrec := ih (acc ++ [defColPrefEntry c]) hndtl
        (by
          intro c2 hc2 hilv2
          simp only [List.map_append, List.mem_append]
          push_neg
          refine ⟨hdisj c2 (List.mem_cons_of_mem _ hc2) hilv2, ?_⟩
          have hcm : c2.fieldname ∈ tl.map DefaultCol.fieldname :=
            List.mem_map_of_mem DefaultCol.fieldname hc2
          simp only [defColPrefEntry, List.map_cons, List.map_nil, List.mem_singleton]
          intro hEq
          exact hc (hEq ▸ hcm))
      simp only [List.foldl_cons, hilv, if_pos, hstep, hrec, List.filter_cons_of_pos,
        List.map_cons]
      simp
    · have hrec := ih acc hndtl
        (fun c2 hc2 hilv2 => hdisj c2 (List.mem_cons_of_mem _ hc2) hilv2)
      have hilv2 : c.in_list_view = false := by
        simpa using hilv
      have hfil : List.filter (fun c => c.in_list_view) (c :: tl) =
          List.filter (fun c => c.in_list_view) tl := by
        simp [List.filter_cons, hilv2]
      simp only [List.foldl_cons, hilv2, Bool.false_eq_true, if_false, hrec, hfil]

/-- C6: for a user with no saved preferences, the defaulted document has
as its columns exactly the identifier field plus the kept schema fields
flagged list-visible, in schema order, each visible with the type-based
default width and order = idx; page size 20; sorting by modification time
descending; empty filters. -/
theorem default_preferences_spec (schema : List SchemaField) (now : Nat)
    (hidx : ∀ f ∈ schema, 1 ≤ f.idx ∧ f.idx ≤ 9998)
    (hmono : schema.Pairwise (fun a b => a.idx ≤ b.idx))
    (hnd : (schema.map SchemaField.fieldname).Nodup)
    (hstd : ∀ f ∈ schema, f.fieldname ∉ ["name", "creation", "modified"]) :
    (create_default_preferences schema now).columns.map Prod.fst =
      "name" :: ((keptFields schema).filter (fun f => f.in_list_view)).map
        SchemaField.fieldname ∧
    (∀ f ∈ keptFields schema, f.in_list_view = true →
      (f.fieldname, ColPref.mk true (get_default_width f.fieldtype) f.idx none (labelOf f)) ∈
        (create_default_preferences schema now).columns) ∧
    ("name", ColPref.mk true 140 0 none "ID") ∈
      (create_default_preferences schema now).columns ∧
    (create_default_preferences schema now).pagination = ⟨20, 1⟩ ∧
    (create_default_preferences schema now).sorting = ⟨"modified", "desc"⟩ ∧
    (create_default_preferences schema now).filters = ⟨[], [], .nil⟩ ∧
    (create_default_preferences schema now).view_settings = ⟨true, false, false, 30⟩ := by
  have hkept_sub : ∀ f ∈ keptFields schema, f ∈ schema := by
    intro f hf
    exact List.mem_of_mem_filter hf
  have hkept_nd : ((keptFields schema).map SchemaField.fieldname).Nodup := by
    have : (keptFields schema).map SchemaField.fieldname |>.Sublist
        (schema.map SchemaField.fieldname) :=
      List.Sublist.map _ (List.filter_sublist schema)
    exact List.Nodup.sublist this hnd
  set A : List DefaultCol := (keptFields schema).map toDefaultCol with hA
  have hAnames : A.map DefaultCol.fieldname =
      (keptFields schema).map SchemaField.fieldname := by
    rw [hA, List.map_map]
    rfl
  have hAbound : ∀ c ∈ A, 1 ≤ c.idx ∧ c.idx ≤ 9998 := by
    intro c hc
    rw [hA] at hc
    obtain ⟨f, hf, rfl⟩ := List.mem_map.mp hc
    exact hidx f (hkept_sub f hf)
  have hAsorted : A.Pairwise (fun a b => a.idx ≤ b.idx) := by
    rw [hA]
    refine List.Pairwise.map toDefaultCol (fun a b hab => hab) ?_
    exact List.Pairwise.sublist (List.filter_sublist schema) hmono
  have hdef : get_default_columns schema =
      nameStdCol :: (A ++ [creationStdCol, modifiedStdCol]) := by
    rw [get_default_columns]
    exact sortByIdx_append_std A hAbound hAsorted
  have hkeptname : ∀ x ∈ (keptFields schema).map SchemaField.fieldname,
      x ≠ "name" ∧ x ≠ "creation" ∧ x ≠ "modified" := by
    intro x hx
    obtain ⟨f, hf, rfl⟩ := List.mem_map.mp hx
    have h0 := hstd f (hkept_sub f hf)
    have h3 : ¬ (f.fieldname = "name" ∨ f.fieldname = "creation" ∨
        f.fieldname = "modified") := by
      simpa using h0
    push_neg at h3
    exact h3
  have hdefnd : ((nameStdCol :: (A ++ [creationStdCol, modifiedStdCol])).map
      DefaultCol.fieldname).Nodup := by
    have hmapeq : (nameStdCol :: (A ++ [creationStdCol, modifiedStdCol])).map
        DefaultCol.fieldname =
        "name" :: ((keptFields schema).map SchemaField.fieldname ++
          ["creation", "modified"]) := by
      simp only [List.map_cons, List.map_append, hAnames]
      rfl
    rw [hmapeq, List.nodup_cons]
    constructor
    · intro hmem
      rcases List.mem_append.mp hmem with h | h
      · exact (hkeptname _ h).1 rfl
      · exact absurd h (by decide)
    · rw [List.nodup_append]
      refine ⟨hkept_nd, by decide, ?_⟩
      intro x hx hx2
      have hkn := hkeptname x hx
      rcases (by simpa using hx2 : x = "creation" ∨ x = "modified") with rfl | rfl
      · exact hkn.2.1 rfl
      · exact hkn.2.2 rfl
  have hcols : (create_default_preferences schema now).columns =
      ((nameStdCol :: (A ++ [creationStdCol, modifiedStdCol])).filter
        (fun c => c.in_list_view)).map defColPrefEntry := by
    show buildColumnPrefs (get_default_columns schema) = _
    rw [hdef, buildColumnPrefs]
    have := buildColumnPrefs_fold (nameStdCol :: (A ++ [creationStdCol, modifiedStdCol]))
      [] hdefnd (by simp)
    simpa using this
  have hfiltered : (nameStdCol :: (A ++ [creationStdCol, modifiedStdCol])).filter
      (fun c => c.in_list_view) = nameStdCol :: A.filter (fun c => c.in_list_view) := by
    simp [List.filter_append, nameStdCol, creationStdCol, modifiedStdCol]
  have hAfilter : A.filter (fun c => c.in_list_view) =
      ((keptFields schema).filter (fun f => f.in_list_view)).map toDefaultCol := by
    rw [hA, List.filter_map]
    rfl
  refine ⟨?_, ?_, ?_, rfl, rfl, rfl, rfl⟩
  · rw [hcols, hfiltered, hAfilter]
    simp only [List.map_cons, List.map_map]
    rfl
  · intro f hf hilv
    rw [hcols, hfiltered, hAfilter]
    have hfm : toDefaultCol f ∈
        ((keptFields schema).filter (fun f => f.in_list_view)).map toDefaultCol :=
      List.mem_map_of_mem toDefaultCol (List.mem_filter.mpr ⟨hf, by simp [hilv]⟩)
    have : defColPrefEntry (toDefaultCol f) =
        (f.fieldname,
          ColPref.mk true (get_default_width f.fieldtype) f.idx none (labelOf f)) := rfl
    rw [← this]
    exact List.mem_cons_of_mem _ (List.mem_map_of_mem defColPrefEntry hfm)
  · rw [hcols, hfiltered]
    exact List.mem_cons_self _ _

/-- Witness for C6 at a three-field schema (two list-visible, one not):
the defaulted document is exactly as the claim describes. -/
theorem default_preferences_spec_witness :
    (create_default_preferences
        [⟨"customer", some "Customer", "Link", false, true, 1⟩,
         ⟨"amount", none, "Currency", false, true, 2⟩,
         ⟨"notes", none, "Text", false, false, 3⟩] 0).columns.map Prod.fst =
      "name" :: ((keptFields
        [⟨"customer", some "Customer", "Link", false, true, 1⟩,
         ⟨"amount", none, "Currency", false, true, 2⟩,
         ⟨"notes", none, "Text", false, false, 3⟩]).filter
          (fun f => f.in_list_view)).map SchemaField.fieldname ∧
    ("customer", ColPref.mk true (get_default_width "Link") 1 none
        (labelOf ⟨"customer", some "Customer", "Link", false, true, 1⟩)) ∈
      (create_default_preferences
        [⟨"customer", some "Customer", "Link", false, true, 1⟩,
         ⟨"amount", none, "Currency", false, true, 2⟩,
         ⟨"notes", none, "Text", false, false, 3⟩] 0).columns ∧
    (create_default_preferences
        [⟨"customer", some "Customer", "Link", false, true, 1⟩,
         ⟨"amount", none, "Currency", false, true, 2⟩,
         ⟨"notes", none, "Text", false, false, 3⟩] 0).pagination = ⟨20, 1⟩ ∧
    (create_default_preferences
        [⟨"customer", some "Customer", "Link", false, true, 1⟩,
         ⟨"amount", none, "Currency", false, true, 2⟩,
         ⟨"notes", none, "Text", false, false, 3⟩] 0).sorting = ⟨"modified", "desc"⟩ := by
  have h := default_preferences_spec
    [⟨"customer", some "Customer", "Link", false, true, 1⟩,
     ⟨"amount", none, "Currency", false, true, 2⟩,
     ⟨"notes", none, "Text", false, false, 3⟩] 0
    (by decide) (by decide) (by decide) (by decide)
  exact ⟨h.1, h.2.1 ⟨"customer", some "Customer", "Link", false, true, 1⟩
    (by decide) (by decide), h.2.2.2.1, h.2.2.2.2.1⟩


/-- Characters with equal code points are equal. -/
theorem char_toNat_inj {a b : Char} (h : a.toNat = b.toNat) : a = b := by
  apply Char.ext
  have h2 : a.val.toBitVec.toNat = b.val.toBitVec.toNat := h
  exact UInt32.eq_of_toBitVec_eq (BitVec.eq_of_toNat_eq h2)

/-- Strings with equal character lists are equal. -/
theorem string_data_inj {s t : String} (h : s.data = t.data) : s = t := by
  cases s
  cases t
  simp only at h
  rw [h]

/-- lexLe is total. -/
theorem lexLe_total (a : List Char) : ∀ b, lexLe a b = true ∨ lexLe b a = true := by
  induction a with
  | nil => intro b; exact .inl rfl
  | cons x xs ih =>
    intro b
    cases b with
    | nil => exact .inr rfl
    | cons y ys =>
      simp only [lexLe]
      by_cases h1 : x.toNat < y.toNat
      · left; rw [if_pos h1]
      · by_cases h2 : y.toNat < x.toNat
        · right; rw [if_pos h2]
        · rw [if_neg h1, if_neg h2, if_neg h2, if_neg h1]
          exact ih ys

/-- lexLe is antisymmetric. -/
theorem lexLe_asym (a : List Char) : ∀ b, lexLe a b = true → lexLe b a = true → a = b := by
  induction a with
  | nil =>
    intro b h1 h2
    cases b with
    | nil => rfl
    | cons y ys => simp [lexLe] at h2
  | cons x xs ih =>
    intro b h1 h2
    cases b with
    | nil => simp [lexLe] at h1
    | cons y ys =>
      simp only [lexLe] at h1 h2
      by_cases hxy : x.toNat < y.toNat
      · rw [if_neg (by omega : ¬ y.toNat < x.toNat), if_pos hxy] at h2
        exact absurd h2 (by simp)
      · by_cases hyx : y.toNat < x.toNat
        · rw [if_neg hxy, if_pos hyx] at h1
          exact absurd h1 (by simp)
        · rw [if_neg hxy, if_neg hyx] at h1
          rw [if_neg hyx, if_neg hxy] at h2
          have hx : x = y := char_toNat_inj (by omega)
          rw [hx, ih ys h1 h2]

/-- lexLe is transitive. -/
theorem lexLe_trans (a : List Char) : ∀ b c, lexLe a b = true → lexLe b c = true →
    lexLe a c = true := by
  induction a with
  | nil => intro b c _ _; rfl
  | cons x xs ih =>
    intro b c hab hbc
    cases b with
    | nil => simp [lexLe] at hab
    | cons y ys =>
      cases c with
      | nil => simp [lexLe] at hbc
      | cons z zs =>
        simp only [lexLe] at hab hbc ⊢
        by_cases hxy : x.toNat < y.toNat
        · by_cases hyz : y.toNat < z.toNat
          · rw [if_pos (by omega : x.toNat < z.toNat)]
          · rw [if_neg hyz] at hbc
            by_cases hzy : z.toNat < y.toNat
            · rw [if_pos hzy] at hbc; exact absurd hbc (by simp)
            · rw [if_pos (by omega : x.toNat < z.toNat)]
        · rw [if_neg hxy] at hab
          by_cases hyx : y.toNat < x.toNat
          · rw [if_pos hyx] at hab; exact absurd hab (by simp)
          · rw [if_neg hyx] at hab
            by_cases hyz : y.toNat < z.toNat
            · rw [if_pos (by omega : x.toNat < z.toNat)]
            · rw [if_neg hyz] at hbc
              by_cases hzy : z.toNat < y.toNat
              · rw [if_pos hzy] at hbc; exact absurd hbc (by simp)
              · rw [if_neg hzy] at hbc
                rw [if_neg (by omega : ¬ x.toNat < z.toNat),
                  if_neg (by omega : ¬ z.toNat < x.toNat)]
                exact ih ys zs hab hbc

/-- strLeB is total. -/
theorem strLeB_total (a b : String) : strLeB a b = true ∨ strLeB b a = true :=
  lexLe_total a.data b.data

/-- strLeB is antisymmetric. -/
theorem strLeB_asym {a b : String} (h1 : strLeB a b = true) (h2 : strLeB b a = true) : a = b :=
  string_data_inj (lexLe_asym a.data b.data h1 h2)

/-- strLeB is transitive. -/
theorem strLeB_trans {a b c : String} (h1 : strLeB a b = true) (h2 : strLeB b c = true) :
    strLeB a c = true :=
  lexLe_trans a.data b.data c.data h1 h2

/-- A failed comparison reverses. -/
theorem strLeB_of_not {a b : String} (h : strLeB a b = false) : strLeB b a = true := by
  rcases strLeB_total a b with h1 | h1
  · rw [h] at h1; exact absurd h1 (by simp)
  · exact h1

/-- Sorted insertions of entries with distinct keys commute. -/
theorem insertObj_comm (k1 k2 : String) (v1 v2 : Json) (hne : k1 ≠ k2) :
    ∀ l, insertObj k1 v1 (insertObj k2 v2 l) = insertObj k2 v2 (insertObj k1 v1 l) := by
  intro l
  induction l using jobjInd with
  | h0 =>
    simp only [insertObj]
    by_cases hc : strLeB k1 k2 = true
    · have hd : ¬ strLeB k2 k1 = true := fun hd => hne (strLeB_asym hc hd)
      rw [if_pos hc, if_neg hd]
    · have hd : strLeB k2 k1 = true := strLeB_of_not (by simpa using hc)
      rw [if_neg hc, if_pos hd]
  | h1 k3 v3 tl ih =>
    by_cases hA : strLeB k1 k3 = true <;> by_cases hB : strLeB k2 k3 = true
    · -- both insert before k3; order decided by k1 vs k2
      by_cases hc : strLeB k1 k2 = true
      · have hd : ¬ strLeB k2 k1 = true := fun hd => hne (strLeB_asym hc hd)
        simp only [insertObj, if_pos hA, if_pos hB, if_pos hc, if_neg hd]
      · have hd : strLeB k2 k1 = true := strLeB_of_not (by simpa using hc)
        simp only [insertObj, if_pos hA, if_pos hB, if_neg hc, if_pos hd]
    · have hd : ¬ strLeB k2 k1 = true := fun hd => hB (strLeB_trans hd hA)
      simp only [insertObj, if_pos hA, if_neg hB, if_neg hd, if_pos hA]
    · have hc : ¬ strLeB k1 k2 = true := fun hc => hA (strLeB_trans hc hB)
      simp only [insertObj, if_neg hA, if_pos hB, if_neg hc, if_pos hB]
    · simp only [insertObj, if_neg hA, if_neg hB, if_neg hA, if_neg hB, ih]

/-- Key-order permutation of content is invisible to canonV. -/
theorem keyPerm_canon : ∀ {j1 j2 : Json}, KeyPerm j1 j2 → canonV j1 = canonV j2 := by
  intro j1 j2 h
  induction h with
  | null => rfl
  | bool b => rfl
  | num n => rfl
  | str s => rfl
  | arrNil => rfl
  | arrCons hx hxs ihx ihxs =>
    simp only [canonV, Json.arr.injEq] at ihxs
    simp only [canonV, canonArr, ihx, ihxs]
  | objNil => rfl
  | objCons k hv hkvs ihv ihkvs =>
    simp only [canonV, Json.obj.injEq] at ihkvs
    simp only [canonV, canonObj, sortObj, ihv, ihkvs]
  | objSwap k1 k2 v1 v2 tl hne =>
    simp only [canonV, canonObj, sortObj]
    exact congrArg Json.obj (insertObj_comm k1 k2 (canonV v1) (canonV v2) hne _)
  | objTrans h12 h23 ih12 ih23 => exact ih12.trans ih23

/-- Code point of a digit character. -/
theorem digitChar_toNat {m : Nat} (h : m < 10) : (digitChar m).toNat = 48 + m := by
  interval_cases m <;> rfl

/-- Digit characters pass isDigit. -/
theorem digitChar_isDigit {m : Nat} (h : m < 10) : (digitChar m).isDigit = true := by
  interval_cases m <;> decide

/-- natCharsF emits digit characters only. -/
theorem natCharsF_all (f : Nat) : ∀ m, (natCharsF f m).all Char.isDigit = true := by
  induction f with
  | zero => intro m; rfl
  | succ f ih =>
    intro m
    simp only [natCharsF]
    by_cases h : m < 10
    · rw [if_pos h]
      simp [digitChar_isDigit h]
    · rw [if_neg h]
      simp [List.all_append, ih (m / 10), digitChar_isDigit (Nat.mod_lt _ (by norm_num))]

/-- natCharsF with positive fuel is nonempty. -/
theorem natCharsF_ne_nil (f m : Nat) : natCharsF (f + 1) m ≠ [] := by
  simp only [natCharsF]
  by_cases h : m < 10
  · rw [if_pos h]; simp
  · rw [if_neg h]; simp

/-- The printer and the digit evaluator are inverse. -/
theorem digitsToNat_natCharsF : ∀ f m, m ≤ f → digitsToNat (natCharsF (f + 1) m) = m := by
  intro f
  induction f with
  | zero =>
    intro m hm
    have hz : m = 0 := by omega
    subst hz
    decide
  | succ f ih =>
    intro m hm
    by_cases h : m < 10
    · simp only [natCharsF, if_pos h, digitsToNat, List.foldl]
      rw [digitChar_toNat h]
      omega
    · have hstep : natCharsF (f + 1 + 1) m
          = if m < 10 then [digitChar m]
            else natCharsF (f + 1) (m / 10) ++ [digitChar (m % 10)] := rfl
      rw [hstep, if_neg h]
      have h2 := ih (m / 10) (by omega)
      simp only [digitsToNat] at h2 ⊢
      rw [List.foldl_append, h2]
      simp only [List.foldl]
      rw [digitChar_toNat (Nat.mod_lt _ (by norm_num))]
      omega

/-- All digits of str(m), packaged. -/
theorem natChars_all (m : Nat) : (natChars m).all Char.isDigit = true := natCharsF_all (m + 1) m

/-- str(m) is nonempty. -/
theorem natChars_ne_nil (m : Nat) : natChars m ≠ [] := natCharsF_ne_nil m m

/-- int(str(m)) = m. -/
theorem digitsToNat_natChars (m : Nat) : digitsToNat (natChars m) = m :=
  digitsToNat_natCharsF m m (Nat.le_refl m)

/-- takeWhile and dropWhile split an append whose left part satisfies the
test everywhere and whose right part fails it at its head. -/
theorem takeWhile_append_all {α : Type} (p : α → Bool) :
    ∀ (l r : List α), (∀ a ∈ l, p a = true) → (∀ c r2, r = c :: r2 → p c = false) →
    (l ++ r).takeWhile p = l ∧ (l ++ r).dropWhile p = r := by
  intro l
  induction l with
  | nil =>
    intro r _ hr
    cases r with
    | nil => exact ⟨rfl, rfl⟩
    | cons c r2 =>
      simp only [List.nil_append, List.takeWhile_cons, List.dropWhile_cons, hr c r2 rfl]
      exact ⟨rfl, rfl⟩
  | cons x xs ih =>
    intro r hl hr
    have hx : p x = true := hl x (by simp)
    obtain ⟨h1, h2⟩ := ih r (fun a ha => hl a (by simp [ha])) hr
    simp only [List.cons_append, List.takeWhile_cons, List.dropWhile_cons, hx, h1, h2]
    exact ⟨rfl, rfl⟩

/-- okTail gives the head condition takeWhile splitting needs. -/
theorem okTail_spec {rest : List Char} (h : okTail rest = true) :
    ∀ c r2, rest = c :: r2 → c.isDigit = false := by
  intro c r2 he
  subst he
  simp only [okTail] at h
  simpa using h

/-- Rebuilding a string from its characters is the identity. -/
theorem string_mk_data (s : String) : String.mk s.data = s := by
  cases s
  rfl

/-- Escape-free characters differ from the quote, in Bool form. -/
theorem strOk_mem {s : String} (h : strOk s = true) : ∀ a ∈ s.data, (a != '"') = true := by
  intro a ha
  have h1 := List.all_eq_true.mp h a ha
  simp only [charOk, Bool.and_eq_true] at h1
  rcases h1 with ⟨⟨_, h2⟩, _⟩
  simp only [Bool.not_eq_true'] at h2
  exact bne_iff_ne.mpr (of_decide_eq_false h2)

/-- Every JSON value serializes to a nonempty list with a start character. -/
theorem dumpsV_cons (j : Json) : ∃ c r, dumpsV j = c :: r ∧ headOk c = true := by
  cases j with
  | null => exact ⟨'n', _, rfl, by decide⟩
  | bool b =>
    cases b with
    | false => exact ⟨'f', _, rfl, by decide⟩
    | true => exact ⟨'t', _, rfl, by decide⟩
  | num n =>
    by_cases h : n < 0
    · refine ⟨'-', natChars n.natAbs, ?_, by decide⟩
      simp [dumpsV, intChars, h]
    · cases hE : natChars n.toNat with
      | nil => exact absurd hE (natChars_ne_nil _)
      | cons c r =>
        refine ⟨c, r, ?_, ?_⟩
        · simp [dumpsV, intChars, h, hE]
        · have h2 := natChars_all n.toNat
          rw [hE] at h2
          simp only [List.all_cons, Bool.and_eq_true] at h2
          simp [headOk, h2.1]
  | str s => exact ⟨'"', s.data ++ ['"'], rfl, by decide⟩
  | arr xs => exact ⟨'[', dumpsArr xs ++ [']'], rfl, by decide⟩
  | obj kvs => exact ⟨'{', dumpsObj kvs ++ ['}'], rfl, by decide⟩

/-- Start characters are not separators or closers. -/
theorem headOk_sep {c : Char} (h : headOk c = true) : c ≠ ']' ∧ c ≠ '}' ∧ c ≠ ',' := by
  refine ⟨?_, ?_, ?_⟩ <;> intro he <;> subst he <;> exact absurd h (by decide)

/-- Structural sizes are positive. -/
theorem sizeJ_pos (j : Json) : 1 ≤ sizeJ j := by
  cases j <;> simp [sizeJ]

/-- Array sizes are positive. -/
theorem sizeA_pos (xs : JArr) : 1 ≤ sizeA xs := by
  cases xs <;> simp [sizeA]

/-- Object sizes are positive. -/
theorem sizeO_pos (l : JObj) : 1 ≤ sizeO l := by
  cases l <;> simp [sizeO]

/-- keysND is the Nodup predicate on key lists. -/
theorem keysND_iff : ∀ L : List String, keysND L = true ↔ L.Nodup := by
  intro L
  induction L with
  | nil => simp [keysND]
  | cons k tl ih =>
    simp only [keysND, Bool.and_eq_true, List.nodup_cons, ← ih]
    constructor
    · rintro ⟨h1, h2⟩
      refine ⟨fun hm => ?_, h2⟩
      have hc : tl.contains k = true := List.elem_iff.mpr hm
      rw [hc] at h1
      exact absurd h1 (by simp)
    · rintro ⟨h1, h2⟩
      refine ⟨?_, h2⟩
      cases hc : tl.contains k with
      | false => rfl
      | true => exact absurd (List.elem_iff.mp hc) h1

/-- canonObj keeps keys unchanged. -/
theorem keys_canonObj : ∀ l : JObj, (canonObj l).keys = l.keys := by
  intro l
  induction l using jobjInd with
  | h0 => rfl
  | h1 k v tl ih =>
    simp only [canonObj, JObj.keys]
    rw [ih]

/-- Sorted insertion permutes keys. -/
theorem keys_insertObj (k : String) (v : Json) :
    ∀ l, ((insertObj k v l).keys).Perm (k :: l.keys) := by
  intro l
  induction l using jobjInd with
  | h0 => exact List.Perm.refl _
  | h1 k2 v2 tl ih =>
    simp only [insertObj]
    by_cases h : strLeB k k2 = true
    · rw [if_pos h]
      exact List.Perm.refl _
    · rw [if_neg h]
      simp only [JObj.keys]
      exact (ih.cons k2).trans (List.Perm.swap k k2 tl.keys)

/-- Sorting permutes keys. -/
theorem keys_sortObj : ∀ l : JObj, ((sortObj l).keys).Perm l.keys := by
  intro l
  induction l using jobjInd with
  | h0 => exact List.Perm.refl _
  | h1 k v tl ih =>
    simp only [sortObj, JObj.keys]
    exact (keys_insertObj k v (sortObj tl)).trans (ih.cons k)

/-- Sorted insertion preserves entry well-formedness. -/
theorem wfObj_insertObj {k : String} {v : Json} (hk : strOk k = true) (hv : wfV v = true) :
    ∀ l, wfObj l = true → wfObj (insertObj k v l) = true := by
  intro l
  induction l using jobjInd with
  | h0 =>
    intro _
    simp [insertObj, wfObj, hk, hv]
  | h1 k2 v2 tl ih =>
    intro hl
    simp only [wfObj, Bool.and_eq_true] at hl
    obtain ⟨⟨hk2, hv2⟩, htl⟩ := hl
    simp only [insertObj]
    by_cases h : strLeB k k2 = true
    · rw [if_pos h]
      simp [wfObj, hk, hv, hk2, hv2, htl]
    · rw [if_neg h]
      simp [wfObj, hk2, hv2, ih htl]

/-- Sorting preserves entry well-formedness. -/
theorem wfObj_sortObj : ∀ l, wfObj l = true → wfObj (sortObj l) = true := by
  intro l
  induction l using jobjInd with
  | h0 => intro h; exact h
  | h1 k v tl ih =>
    intro hl
    simp only [wfObj, Bool.and_eq_true] at hl
    obtain ⟨⟨hk, hv⟩, htl⟩ := hl
    exact wfObj_insertObj hk hv _ (ih htl)

/-- Canonicalization preserves well-formedness. -/
theorem wf_canonV (j : Json) : wfV j = true → wfV (canonV j) = true := by
  refine jmiV (P := fun j => wfV j = true → wfV (canonV j) = true)
    (Q := fun xs => wfArr xs = true → wfArr (canonArr xs) = true)
    (R := fun kvs => wfObj kvs = true → wfObj (canonObj kvs) = true)
    ?_ ?_ ?_ ?_ ?_ ?_ ?_ ?_ ?_ ?_ j
  · intro h; exact h
  · intro b h; exact h
  · intro n h; exact h
  · intro s h; exact h
  · intro xs hq h
    exact hq h
  · intro kvs hr h
    simp only [wfV, Bool.and_eq_true] at h
    obtain ⟨hnd, ho⟩ := h
    simp only [canonV, wfV, Bool.and_eq_true]
    constructor
    · rw [keysND_iff] at hnd ⊢
      have hp := keys_sortObj (canonObj kvs)
      rw [keys_canonObj] at hp
      exact hp.nodup_iff.mpr hnd
    · exact wfObj_sortObj _ (hr ho)
  · intro h; exact h
  · intro x tl hx htl h
    simp only [wfArr, Bool.and_eq_true] at h
    simp only [canonArr, wfArr, Bool.and_eq_true]
    exact ⟨hx h.1, htl h.2⟩
  · intro h; exact h
  · intro k v tl hv htl h
    simp only [wfObj, Bool.and_eq_true] at h
    obtain ⟨⟨hk, hvv⟩, htll⟩ := h
    simp only [canonObj, wfObj, Bool.and_eq_true]
    exact ⟨⟨hk, hv hvv⟩, htl htll⟩


/-- The decoder inverts the serializer on well-formed values, for any
sufficient fuel and any continuation not starting with a digit. -/
theorem decode_roundtrip : ∀ f : Nat,
    (∀ j rest, sizeJ j ≤ f → wfV j = true → okTail rest = true →
      decodeV f (dumpsV j ++ rest) = some (j, rest)) ∧
    (∀ xs rest, sizeA xs ≤ f → wfArr xs = true →
      decodeItems f (dumpsArr xs ++ ']' :: rest) = some (xs, rest)) ∧
    (∀ kvs rest, sizeO kvs ≤ f → wfObj kvs = true →
      decodePairs f (dumpsObj kvs ++ '}' :: rest) = some (kvs, rest)) := by
  intro f
  induction f with
  | zero =>
    refine ⟨fun j rest hs _ _ => absurd hs (by have := sizeJ_pos j; omega),
      fun xs rest hs _ => absurd hs (by have := sizeA_pos xs; omega),
      fun kvs rest hs _ => absurd hs (by have := sizeO_pos kvs; omega)⟩
  | succ f ih =>
    obtain ⟨ihV, ihA, ihO⟩ := ih
    refine ⟨?_, ?_, ?_⟩
    · intro j rest hs hwf htail
      cases j with
      | null => rfl
      | bool b => cases b <;> rfl
      | num n =>
        by_cases hn : n < 0
        · obtain ⟨ht, hd⟩ := takeWhile_append_all Char.isDigit (natChars n.natAbs) rest
            (fun a ha => List.all_eq_true.mp (natChars_all _) a ha) (okTail_spec htail)
          have hE : dumpsV (.num n) ++ rest = '-' :: (natChars n.natAbs ++ rest) := by
            simp [dumpsV, intChars, hn]
          have hstep : decodeV (f + 1) ('-' :: (natChars n.natAbs ++ rest))
              = if ((natChars n.natAbs ++ rest).takeWhile Char.isDigit).isEmpty then none
                else some
                  (.num (-(digitsToNat ((natChars n.natAbs ++ rest).takeWhile Char.isDigit) : Int)),
                    (natChars n.natAbs ++ rest).dropWhile Char.isDigit) := rfl
          rw [hE, hstep, ht, hd]
          rw [if_neg (by simpa [List.isEmpty_iff] using natChars_ne_nil n.natAbs)]
          rw [digitsToNat_natChars]
          have hval : (-(n.natAbs : Int)) = n := by omega
          rw [hval]
        · obtain ⟨ht, hd⟩ := takeWhile_append_all Char.isDigit (natChars n.toNat) rest
            (fun a ha => List.all_eq_true.mp (natChars_all _) a ha) (okTail_spec htail)
          have hE : dumpsV (.num n) ++ rest = natChars n.toNat ++ rest := by
            simp [dumpsV, intChars, hn]
          rw [hE]
          cases hC : natChars n.toNat with
          | nil => exact absurd hC (natChars_ne_nil _)
          | cons c r =>
            have hcd : c.isDigit = true := by
              have h2 := natChars_all n.toNat
              rw [hC] at h2
              simp only [List.all_cons, Bool.and_eq_true] at h2
              exact h2.1
            rw [hC] at ht hd
            rw [show (c :: r) ++ rest = c :: (r ++ rest) from rfl]
            simp only [decodeV]
            rw [if_pos hcd]
            rw [show c :: (r ++ rest) = (c :: r) ++ rest from rfl, ht, hd]
            rw [← hC, digitsToNat_natChars]
            have hval : ((n.toNat : Int)) = n := by omega
            rw [hval]
      | str s =>
        have hwf2 : strOk s = true := hwf
        obtain ⟨ht, hd⟩ := takeWhile_append_all (fun x => x != '"') s.data ('"' :: rest)
          (strOk_mem hwf2) (by intro c r2 he; cases he; rfl)
        have hE : dumpsV (.str s) ++ rest = '"' :: (s.data ++ '"' :: rest) := by
          simp [dumpsV]
        have hstep : decodeV (f + 1) ('"' :: (s.data ++ '"' :: rest))
            = match (s.data ++ '"' :: rest).dropWhile (fun x => x != '"') with
              | '"' :: r2 =>
                some (.str (String.mk ((s.data ++ '"' :: rest).takeWhile (fun x => x != '"'))), r2)
              | _ => none := rfl
        rw [hE, hstep, ht, hd]
        rfl
      | arr xs =>
        have hss : sizeA xs ≤ f := by
          simp only [sizeJ] at hs
          omega
        have hwf2 : wfArr xs = true := hwf
        have hE : dumpsV (.arr xs) ++ rest = '[' :: (dumpsArr xs ++ ']' :: rest) := by
          simp [dumpsV]
        have hstep : decodeV (f + 1) ('[' :: (dumpsArr xs ++ ']' :: rest))
            = (decodeItems f (dumpsArr xs ++ ']' :: rest)).map (fun p => (.arr p.1, p.2)) := rfl
        rw [hE, hstep, ihA xs rest hss hwf2]
        rfl
      | obj kvs =>
        have hss : sizeO kvs ≤ f := by
          simp only [sizeJ] at hs
          omega
        have hwf2 : wfObj kvs = true := by
          simp only [wfV, Bool.and_eq_true] at hwf
          exact hwf.2
        have hE : dumpsV (.obj kvs) ++ rest = '{' :: (dumpsObj kvs ++ '}' :: rest) := by
          simp [dumpsV]
        have hstep : decodeV (f + 1) ('{' :: (dumpsObj kvs ++ '}' :: rest))
            = (decodePairs f (dumpsObj kvs ++ '}' :: rest)).map (fun p => (.obj p.1, p.2)) := rfl
        rw [hE, hstep, ihO kvs rest hss hwf2]
        rfl
    · intro xs rest hs hwf
      cases xs with
      | nil => rfl
      | cons x tl =>
        obtain ⟨c, r, hcr, hok⟩ := dumpsV_cons x
        obtain ⟨hne1, _, _⟩ := headOk_sep hok
        simp only [wfArr, Bool.and_eq_true] at hwf
        obtain ⟨hwx, hwtl⟩ := hwf
        simp only [sizeA] at hs
        cases tl with
        | nil =>
          have hE : dumpsArr (.cons x .nil) ++ ']' :: rest = c :: (r ++ ']' :: rest) := by
            simp [dumpsArr, hcr]
          rw [hE]
          simp only [decodeItems]
          rw [if_neg hne1]
          have hdec : decodeV f (c :: (r ++ ']' :: rest)) = some (x, ']' :: rest) := by
            rw [show c :: (r ++ ']' :: rest) = dumpsV x ++ ']' :: rest from by simp [hcr]]
            exact ihV x (']' :: rest) (by omega) hwx rfl
          rw [hdec]
          rfl
        | cons y tl2 =>
          have hE : dumpsArr (.cons x (.cons y tl2)) ++ ']' :: rest
              = c :: (r ++ ',' :: (dumpsArr (.cons y tl2) ++ ']' :: rest)) := by
            simp [dumpsArr, hcr]
          rw [hE]
          simp only [decodeItems]
          rw [if_neg hne1]
          have hdec : decodeV f (c :: (r ++ ',' :: (dumpsArr (.cons y tl2) ++ ']' :: rest)))
              = some (x, ',' :: (dumpsArr (.cons y tl2) ++ ']' :: rest)) := by
            rw [show c :: (r ++ ',' :: (dumpsArr (.cons y tl2) ++ ']' :: rest))
                = dumpsV x ++ ',' :: (dumpsArr (.cons y tl2) ++ ']' :: rest) from by simp [hcr]]
            exact ihV x _ (by have := sizeJ_pos y; have := sizeA_pos tl2; omega) hwx rfl
          rw [hdec]
          have hrec := ihA (.cons y tl2) rest
            (by have := sizeJ_pos x; simp only [sizeA] at hs ⊢; omega) hwtl
          show (decodeItems f (dumpsArr (.cons y tl2) ++ ']' :: rest)).map
            (fun p => (JArr.cons x p.1, p.2)) = some (.cons x (.cons y tl2), rest)
          rw [hrec]
          rfl
    · intro kvs rest hs hwf
      cases kvs with
      | nil => rfl
      | cons k v tl =>
        simp only [wfObj, Bool.and_eq_true] at hwf
        obtain ⟨⟨hk, hv⟩, htl⟩ := hwf
        simp only [sizeO] at hs
        cases tl with
        | nil =>
          obtain ⟨ht, hd⟩ := takeWhile_append_all (fun x => x != '"') k.data
            ('"' :: ':' :: (dumpsV v ++ '}' :: rest)) (strOk_mem hk)
            (by intro c r2 he; cases he; rfl)
          have hE : dumpsObj (.cons k v .nil) ++ '}' :: rest
              = '"' :: (k.data ++ '"' :: ':' :: (dumpsV v ++ '}' :: rest)) := by
            simp [dumpsObj]
          have hstep : decodePairs (f + 1)
                ('"' :: (k.data ++ '"' :: ':' :: (dumpsV v ++ '}' :: rest)))
              = match (k.data ++ '"' :: ':' :: (dumpsV v ++ '}' :: rest)).dropWhile
                  (fun x => x != '"') with
                | '"' :: ':' :: r2 =>
                  match decodeV f r2 with
                  | some (w, ',' :: r3) =>
                    (decodePairs f r3).map (fun p =>
                      (.cons (String.mk ((k.data ++ '"' :: ':' :: (dumpsV v ++ '}' :: rest)).takeWhile
                        (fun x => x != '"'))) w p.1, p.2))
                  | some (w, '}' :: r3) =>
                    some (.cons (String.mk ((k.data ++ '"' :: ':' :: (dumpsV v ++ '}' :: rest)).takeWhile
                      (fun x => x != '"'))) w .nil, r3)
                  | _ => none
                | _ => none := rfl
          rw [hE, hstep, ht, hd]
          have hdec : decodeV f (dumpsV v ++ '}' :: rest) = some (v, '}' :: rest) :=
            ihV v ('}' :: rest) (by omega) hv rfl
          show (match decodeV f (dumpsV v ++ '}' :: rest) with
            | some (w, ',' :: r3) => (decodePairs f r3).map
                (fun p => (JObj.cons (String.mk k.data) w p.1, p.2))
            | some (w, '}' :: r3) => some (JObj.cons (String.mk k.data) w JObj.nil, r3)
            | _ => none) = some (JObj.cons k v JObj.nil, rest)
          rw [hdec]
          rfl
        | cons k2 v2 tl2 =>
          obtain ⟨ht, hd⟩ := takeWhile_append_all (fun x => x != '"') k.data
            ('"' :: ':' :: (dumpsV v ++ ',' :: (dumpsObj (.cons k2 v2 tl2) ++ '}' :: rest)))
            (strOk_mem hk) (by intro c r2 he; cases he; rfl)
          have hE : dumpsObj (.cons k v (.cons k2 v2 tl2)) ++ '}' :: rest
              = '"' :: (k.data ++ '"' :: ':' ::
                (dumpsV v ++ ',' :: (dumpsObj (.cons k2 v2 tl2) ++ '}' :: rest))) := by
            simp [dumpsObj]
          have hstep : decodePairs (f + 1) ('"' :: (k.data ++ '"' :: ':' ::
                (dumpsV v ++ ',' :: (dumpsObj (.cons k2 v2 tl2) ++ '}' :: rest))))
              = match (k.data ++ '"' :: ':' ::
                  (dumpsV v ++ ',' :: (dumpsObj (.cons k2 v2 tl2) ++ '}' :: rest))).dropWhile
                  (fun x => x != '"') with
                | '"' :: ':' :: r2 =>
                  match decodeV f r2 with
                  | some (w, ',' :: r3) =>
                    (decodePairs f r3).map (fun p =>
                      (.cons (String.mk ((k.data ++ '"' :: ':' ::
                        (dumpsV v ++ ',' :: (dumpsObj (.cons k2 v2 tl2) ++ '}' :: rest))).takeWhile
                        (fun x => x != '"'))) w p.1, p.2))
                  | some (w, '}' :: r3) =>
                    some (.cons (String.mk ((k.data ++ '"' :: ':' ::
                      (dumpsV v ++ ',' :: (dumpsObj (.cons k2 v2 tl2) ++ '}' :: rest))).takeWhile
                      (fun x => x != '"'))) w .nil, r3)
                  | _ => none
                | _ => none := rfl
          rw [hE, hstep, ht, hd]
          have hdec : decodeV f (dumpsV v ++ ',' :: (dumpsObj (.cons k2 v2 tl2) ++ '}' :: rest))
              = some (v, ',' :: (dumpsObj (.cons k2 v2 tl2) ++ '}' :: rest)) :=
            ihV v _ (by omega) hv rfl
          show (match decodeV f (dumpsV v ++ ',' :: (dumpsObj (.cons k2 v2 tl2) ++ '}' :: rest)) with
            | some (w, ',' :: r3) => (decodePairs f r3).map
                (fun p => (JObj.cons (String.mk k.data) w p.1, p.2))
            | some (w, '}' :: r3) => some (JObj.cons (String.mk k.data) w JObj.nil, r3)
            | _ => none) = some (JObj.cons k v (.cons k2 v2 tl2), rest)
          rw [hdec]
          have hrec := ihO (.cons k2 v2 tl2) rest
            (by have := sizeJ_pos v; simp only [sizeO] at hs ⊢; omega) htl
          show (decodePairs f (dumpsObj (.cons k2 v2 tl2) ++ '}' :: rest)).map
            (fun p => (JObj.cons (String.mk k.data) v p.1, p.2))
            = some (JObj.cons k v (.cons k2 v2 tl2), rest)
          rw [hrec]
          rfl

/-- C5: the content hash is stable under key reordering — a KeyPerm of the
preference document yields the identical hash — and injective on content:
two well-formed documents with equal hashes have equal canonical forms, so
mutating any field (which changes the canonical form) changes the hash.
The digest is modelled as an ideal collision-free function. -/
theorem hash_stable_and_content_injective (j1 j2 : Json) :
    (KeyPerm j1 j2 → generate_preference_hash j1 = generate_preference_hash j2) ∧
    (wfV j1 = true → wfV j2 = true →
      generate_preference_hash j1 = generate_preference_hash j2 → canonV j1 = canonV j2) := by
  constructor
  · intro h
    simp only [generate_preference_hash, jsonDumpsSorted, md5Hex, keyPerm_canon h]
  · intro h1 h2 heq
    have hd : dumpsV (canonV j1) = dumpsV (canonV j2) := congrArg String.data heq
    have hw1 : wfV (canonV j1) = true := wf_canonV j1 h1
    have hw2 : wfV (canonV j2) = true := wf_canonV j2 h2
    have r1 := (decode_roundtrip (max (sizeJ (canonV j1)) (sizeJ (canonV j2)))).1
      (canonV j1) [] (Nat.le_max_left _ _) hw1 rfl
    have r2 := (decode_roundtrip (max (sizeJ (canonV j1)) (sizeJ (canonV j2)))).1
      (canonV j2) [] (Nat.le_max_right _ _) hw2 rfl
    rw [List.append_nil] at r1 r2
    rw [hd, r2] at r1
    simp only [Option.some.injEq, Prod.mk.injEq] at r1
    exact r1.1.symm

/-- Witness for C5 at concrete input: the two-key object written in both
key orders hashes identically, and the canonical forms agree. -/
theorem hash_stable_and_content_injective_witness :
    generate_preference_hash
        (.obj (.cons "a" (.num 1) (.cons "b" (.num 2) .nil)))
      = generate_preference_hash
        (.obj (.cons "b" (.num 2) (.cons "a" (.num 1) .nil))) ∧
    canonV (.obj (.cons "a" (.num 1) (.cons "b" (.num 2) .nil)))
      = canonV (.obj (.cons "b" (.num 2) (.cons "a" (.num 1) .nil))) := by
  have h := hash_stable_and_content_injective
    (.obj (.cons "a" (.num 1) (.cons "b" (.num 2) .nil)))
    (.obj (.cons "b" (.num 2) (.cons "a" (.num 1) .nil)))
  have h1 := h.1 (KeyPerm.objSwap "a" "b" (.num 1) (.num 2) .nil (by decide))
  exact ⟨h1, h.2 (by decide) (by decide) h1⟩
